import Mathlib

set_option maxRecDepth 10000

/-!
# Verification of the calculator engine of `src/frontend_calculator/src/App.js`

The source is a React component whose core is a synchronous state machine over
seven fields (`display`, `prevValue`, `pendingOp`, `lastOp`, `previousLine`,
`overwrite`, `error`).  Every user action is one of eight handlers
(`inputDigit`, `inputDecimal`, `setOperator`, `evaluateEquals`, `clearAll`,
`toggleSign`, `applyPercent`, `backspace`); each handler reads the current
state and performs a batch of `setX` updates, which we model as a single
functional state transition.

JavaScript numbers are modelled as exact rationals (`ℚ`); the engine's
`isFiniteNumber` guards are then always true, which matches the source
except where double arithmetic overflows to `Infinity` (magnitudes around
`1.8e308`) — that regime has no exact-rational counterpart, and the claims
touching it carry explicit magnitude bounds carving it out.  The one
operation where JavaScript produces a non-finite value from finite inputs
inside the engine at ordinary magnitudes, division by zero, is modelled
explicitly (`compute` returns `none`).  `formatNumber`'s leading non-finite
check is kept by giving it an `Option ℚ` argument (`none` = non-finite
input), and its `String` rendering is modelled in both regimes of
ECMAScript `Number::toString`: plain decimal for zero and magnitudes in
`[10^-6, 10^21)`, exponential notation otherwise.  Display strings are Lean
`String`s; the string primitives the source uses (`includes`, `startsWith`,
`endsWith`, `slice`, `length`, `+`) are modelled on the underlying
character list.
-/

namespace Calculator

section
/- Batteries marks the rational-number operations `@[irreducible]`, which
stops `decide` from evaluating concrete engine runs; restore reducibility for
this development. -/
attribute [local semireducible] Rat.add Rat.sub Rat.mul Rat.inv Rat.ofScientific

/-! ## Characters and digit strings -/

/-- The character for a decimal digit value (`String(digit)` for 0–9). -/
def digitChar (d : ℕ) : Char := Char.ofNat (48 + d)

/-- Numeric value of a digit character. -/
def chVal (c : Char) : ℕ := c.toNat - 48

/-- Big-endian digit characters folded into the natural number they denote. -/
def parseDigits (cs : List Char) : ℕ :=
  cs.foldl (fun a c => 10 * a + chVal c) 0

/-- Fuel-driven little-endian base-10 digit expansion (structural recursion so
that the kernel can evaluate it; proved equal to `Nat.digits 10` below). -/
def digitsAux : ℕ → ℕ → List ℕ
  | 0, _ => []
  | fuel + 1, n => if n = 0 then [] else n % 10 :: digitsAux fuel (n / 10)

/-- Little-endian base-10 digits of `n` (empty for 0). -/
def natDigits (n : ℕ) : List ℕ := digitsAux n n

/-- Big-endian decimal digit characters of `n` (the body of `String(n)` for a
natural number). -/
def renderNat (n : ℕ) : List Char :=
  if n = 0 then [ '0' ] else ((natDigits n).reverse).map digitChar

/-! ## The model of JavaScript `Number(string)`

The engine feeds `Number` only display strings and `formatNumber` outputs:
optionally signed decimal numerals with at most one point, or exponential
notation produced by `String` for very small or very large magnitudes, or
the error marker.  We model the `StrDecimalLiteral` fragment of the
ECMAScript `Number` grammar: optional sign, integer digits, optional point
and fraction digits (at least one digit), and an optional exponent part
`e`/`E` with optional sign and digits.  Every other string — including the
error marker — is outside the grammar and yields `none`, the model of
`NaN`.  (Hexadecimal, whitespace and `Infinity` forms of the grammar are
never produced by the engine in the exact-rational model and are not
modelled.) -/

/-- The exponent part of the `Number` grammar: `e`/`E`, an optional sign,
and at least one digit. -/
def jsExponent (cs : List Char) : Option ℤ :=
  if cs.head? = some 'e' ∨ cs.head? = some 'E' then
    let t := cs.tail
    let neg : Bool := t.head? = some '-'
    let ds := if t.head? = some '-' ∨ t.head? = some '+' then t.tail else t
    if ds ≠ [] ∧ (ds.all fun c => c.isDigit) then
      some (if neg then -(parseDigits ds : ℤ) else (parseDigits ds : ℤ))
    else none
  else none

/-- Unsigned decimal-literal parse: `digits`, `digits.`, `digits.digits`,
`.digits` (at least one digit overall), each optionally followed by an
exponent part. -/
def jsNumberUnsigned (cs : List Char) : Option ℚ :=
  let intPart := cs.takeWhile fun c => c.isDigit
  let rest := cs.dropWhile fun c => c.isDigit
  if rest = [] then
    if intPart.isEmpty then none else some (parseDigits intPart)
  else if rest.head? = some '.' then
    let afterDot := rest.tail
    let frac := afterDot.takeWhile fun c => c.isDigit
    let rest2 := afterDot.dropWhile fun c => c.isDigit
    if intPart.isEmpty && frac.isEmpty then none
    else
      let mant : ℚ := (parseDigits intPart : ℚ) + (parseDigits frac : ℚ) / 10 ^ frac.length
      if rest2 = [] then some mant
      else (jsExponent rest2).map fun e => mant * 10 ^ e
  else
    if intPart.isEmpty then none
    else (jsExponent rest).map fun e => (parseDigits intPart : ℚ) * 10 ^ e

/-- Signed decimal-literal parse (model of `Number`; `none` = `NaN`). -/
def jsNumber (cs : List Char) : Option ℚ :=
  if cs.head? = some '-' then (jsNumberUnsigned cs.tail).map fun v => -v
  else if cs.head? = some '+' then jsNumberUnsigned cs.tail
  else jsNumberUnsigned cs

/-- `Number(x)` at call sites where the source has already ruled `NaN` out
(`const numeric = Number(formatted)`). -/
def jsNumberOr0 (cs : List Char) : ℚ := (jsNumber cs).getD 0

/-- `parseDisplayToNumber` from the source: special-cases `"-"`, `""`, `"."`
to 0, otherwise `Number(valueStr)` with `NaN` mapped to 0. -/
def parseCharsFull (cs : List Char) : ℚ :=
  if cs = [ '-' ] ∨ cs = [] ∨ cs = [ '.' ] then 0
  else match jsNumber cs with
    | none => 0
    | some v => v

/-- The source's `parseDisplayToNumber`, on `String`. -/
def parseDisplayToNumber (s : String) : ℚ := parseCharsFull s.data

/-! ## The model of `formatNumber` -/

/-- `Number.EPSILON`. -/
def epsQ : ℚ := 1 / 2 ^ 52

/-- The integer `Math.round((n + Number.EPSILON) * 1e10)` of the source
(`Math.round x = ⌊x + 1/2⌋`, ties toward `+∞`).  The rounded display value is
`ratRound10 n / 10^10`. -/
def ratRound10 (n : ℚ) : ℤ := ⌊(n + epsQ) * 10 ^ 10 + 1 / 2⌋

/-- The 10 fraction digits of `f < 10^10`, little-endian, zero-padded at the
high-order end. -/
def fracPadded (f : ℕ) : List ℕ :=
  natDigits f ++ List.replicate (10 - (natDigits f).length) 0

/-- Model of the regex replacement `s.replace(/\.?0+$/, "")` acting on the
reversed character list: strip a nonempty run of leading `'0'`s and then one
optional `'.'`. -/
def revStrip (rcs : List Char) : List Char :=
  if rcs.head? = some '0' then
    let d := rcs.dropWhile fun c => c = '0'
    if d.head? = some '.' then d.tail else d
  else rcs

/-- The source's trailing-zero trim: applied only when the string contains a
decimal point (`if (s.includes(".")) s = s.replace(/\.?0+$/, "")`). -/
def trimZeros (cs : List Char) : List Char :=
  if cs.contains '.' then (revStrip cs.reverse).reverse else cs

/-! Exponential notation (ECMAScript `Number::toString`, radix 10): with
`m = sig · 10^t` and `sig` not divisible by 10, the value `m / 10^10` is
`d₀.d₁…dₖ₋₁ · 10^e` where `d₀…dₖ₋₁` are the digits of `sig` and
`e = (k-1) + t - 10`; rendered as the leading digit, a point and the
remaining digits when there are any, then `e`, the sign of the exponent,
and its digits. -/

/-- The significand digits of `m`, little-endian, with the low-order zero
run removed: `m = Nat.ofDigits 10 (sigLEOf m) · 10^t` with `t` the number
of dropped zeros. -/
def sigLEOf (m : ℕ) : List ℕ := (natDigits m).dropWhile fun d => decide (d = 0)

/-- The decimal exponent of the value `m / 10^10`: one less than the number
of significand digits, plus the number of dropped low-order zeros, minus
the scale 10. -/
def expEOf (m : ℕ) : ℤ :=
  ((sigLEOf m).length : ℤ) - 1
    + (((natDigits m).length - (sigLEOf m).length : ℕ) : ℤ) - 10

/-- The exponential-notation rendering of the nonzero magnitude `m / 10^10`:
the leading significand digit, a point and the remaining significand digits
when there are any, then `e`, the exponent's sign, and its digits. -/
def expChars (m : ℕ) : List Char :=
  match (sigLEOf m).reverse with
  | [] => [ '0' ]
  | d₀ :: rest =>
      digitChar d₀ ::
        ((if rest = [] then [] else '.' :: rest.map digitChar) ++
          'e' :: (if expEOf m < 0 then '-' else '+') :: renderNat (expEOf m).natAbs)

/-- `String(normalized)` followed by the trim, for the rounded value
`r / 10^10`.  ECMAScript `String` uses plain decimal notation exactly when
the value is zero or its magnitude lies in `[10^-6, 10^21)` — for
`m = |r|`, when `m = 0` or `10^4 ≤ m < 10^31` — and exponential notation
otherwise.  An exponential rendering contains `'e'`, so the source returns
it unmodified (`if (s.includes("e") || s.includes("E")) return s`) before
the trailing-zero trim; the decimal rendering is the sign, the integer part,
and — when the fraction is nonzero — a point and the fraction digits,
followed by the trim.  Negative zero cannot arise (`r = 0` renders as `"0"`
with no sign), which realises the `Object.is(rounded, -0)` normalization.
The `Infinity` rendering of the source (overflow of the double multiply
`(n + EPSILON) * 1e10` at `|n| ≳ 1.8e298`) has no counterpart for exact
rationals and is outside the model. -/
def renderScaled (r : ℤ) : List Char :=
  let m := r.natAbs
  if m ≠ 0 ∧ (m < 10 ^ 4 ∨ 10 ^ 31 ≤ m) then
    if r < 0 then '-' :: expChars m else expChars m
  else
    let q := m / 10 ^ 10
    let f := m % 10 ^ 10
    let body := if f = 0 then renderNat q
                else renderNat q ++ '.' :: ((fracPadded f).reverse).map digitChar
    trimZeros (if r < 0 then '-' :: body else body)

/-- The source's `formatNumber`; `none` models a non-finite argument.  For
finite `n` the source computes `(n + Number.EPSILON) * 1e10` in double
arithmetic, which overflows to `Infinity` for `|n| ≳ 1.8e298` and then
displays `"Infinity"`; exact rationals never overflow, so the claims about
this function carry `|n| ≤ 10^297` bounds (or the `fmtSafe` side condition)
restricting them to the overflow-free regime where the model and the source
agree. -/
def formatNumber : Option ℚ → String
  | none => "Error"
  | some n => String.mk (renderScaled (ratRound10 n))

/-! ## The engine state and the eight actions -/

/-- The four binary operators (`"+"`, `"-"`, `"*"`, `"/"` in the source). -/
inductive Op where
  | add
  | sub
  | mul
  | div
deriving DecidableEq, Repr

/-- `opSymbol` from the source. -/
def opSymbol : Op → String
  | Op.add => "+"
  | Op.sub => "−"
  | Op.mul => "×"
  | Op.div => "÷"

/-- The engine state: the seven `useState` fields of the component. -/
structure CalcState where
  display : String
  prevValue : Option ℚ
  pendingOp : Option Op
  lastOp : Option (Op × ℚ)
  previousLine : String
  overwrite : Bool
  error : Bool
deriving DecidableEq, Repr

/-- The initial state (`useState` initial values). -/
def initState : CalcState :=
  { display := "0", prevValue := none, pendingOp := none, lastOp := none,
    previousLine := "", overwrite := false, error := false }

/-- `compute` from the source.  In the exact-rational model both operands
are always finite, so the leading `isFiniteNumber` guard passes; and a sum,
difference, product or quotient of rationals never overflows, so the
callers' non-finite-result error path (`!isFiniteNumber(result.value)` →
Error state, reachable in the source only when the double result exceeds
`~1.8e308`) never fires: the only failure (`{ ok: false }`) in the model is
division by zero.  The `safeTrace` side condition and the `|n| ≤ 10^297`
hypotheses of the formatting claims keep every value they speak about far
below that overflow threshold. -/
def compute (a : ℚ) (op : Op) (b : ℚ) : Option ℚ :=
  match op with
  | Op.add => some (a + b)
  | Op.sub => some (a - b)
  | Op.mul => some (a * b)
  | Op.div => if b = 0 then none else some (a / b)

/-- `setErrorState` from the source. -/
def setErrorState (_s : CalcState) : CalcState :=
  { display := "Error", prevValue := none, pendingOp := none, lastOp := none,
    previousLine := "", overwrite := true, error := true }

/-- `clearAll` from the source. -/
def clearAll (_s : CalcState) : CalcState := initState

/-- `String(digit)` for a digit 0–9. -/
def digitStr (d : Fin 10) : String := String.mk [digitChar d.val]

/-- `inputDigit` from the source. -/
def inputDigit (d : Fin 10) (s : CalcState) : CalcState :=
  if s.error then
    { display := digitStr d, prevValue := none, pendingOp := none,
      lastOp := none, previousLine := "", overwrite := false, error := false }
  else if s.overwrite then
    { s with display := digitStr d, overwrite := false }
  else if s.display = "0" then
    { s with display := digitStr d }
  else if s.display = "-0" then
    { s with display := "-" ++ digitStr d }
  else
    { s with display := s.display ++ digitStr d }

/-- `inputDecimal` from the source. -/
def inputDecimal (s : CalcState) : CalcState :=
  if s.error then
    { display := "0.", prevValue := none, pendingOp := none, lastOp := none,
      previousLine := "", overwrite := false, error := false }
  else if s.overwrite then
    { s with display := "0.", overwrite := false }
  else if s.display.data.contains '.' then
    s
  else if s.display = "Error" then
    { s with display := "0." }
  else if s.display = "-" ∨ s.display = "" then
    { s with display := "0." }
  else
    { s with display := s.display ++ "." }

/-- The display transform of `toggleSign` (the two `"0"`/`"0."` cases of the
source are written out literally; `slice(1)` is `List.tail`). -/
def toggleDisp (cs : List Char) : List Char :=
  if cs = [ '0' ] then [ '-', '0' ]
  else if cs = [ '0', '.' ] then [ '-', '0', '.' ]
  else if cs = [ '-', '0' ] then [ '0' ]
  else if cs = [ '-', '0', '.' ] then [ '0', '.' ]
  else if cs.head? = some '-' then cs.tail
  else '-' :: cs

/-- `toggleSign` from the source. -/
def toggleSign (s : CalcState) : CalcState :=
  if s.error then s
  else { s with display := String.mk (toggleDisp s.display.data) }

/-- `backspace` from the source (`slice(0, -1)` is `List.dropLast`). -/
def backspace (s : CalcState) : CalcState :=
  if s.error then clearAll s
  else if s.overwrite then { s with display := "0" }
  else if s.display.length ≤ 1 then { s with display := "0" }
  else if s.display.length = 2 ∧ s.display.data.head? = some '-' then
    { s with display := "0" }
  else
    { s with display := String.mk s.display.data.dropLast }

/-- `applyPercent` from the source. -/
def applyPercent (s : CalcState) : CalcState :=
  if s.error then s
  else
    let current := parseDisplayToNumber s.display
    match s.pendingOp, s.prevValue with
    | some _, some pv =>
        { s with display := formatNumber (some (pv * (current / 100))),
                 overwrite := true }
    | _, _ =>
        { s with display := formatNumber (some (current / 100)),
                 overwrite := true }

/-- `setOperator` from the source. -/
def setOperator (op : Op) (s : CalcState) : CalcState :=
  if s.error then s
  else
    let current := parseDisplayToNumber s.display
    if s.pendingOp.isSome ∧ s.overwrite then
      { s with pendingOp := some op,
               previousLine := formatNumber (some (s.prevValue.getD 0)) ++ " " ++ opSymbol op }
    else
      match s.pendingOp, s.prevValue with
      | some p, some pv =>
          match compute pv p current with
          | none => setErrorState s
          | some v =>
              let formatted := formatNumber (some v)
              { s with prevValue := some (jsNumberOr0 formatted.data),
                       display := formatted,
                       pendingOp := some op,
                       previousLine := formatted ++ " " ++ opSymbol op,
                       overwrite := true,
                       lastOp := none }
      | _, _ =>
          { s with prevValue := some current,
                   pendingOp := some op,
                   previousLine := formatNumber (some current) ++ " " ++ opSymbol op,
                   overwrite := true,
                   lastOp := none }

/-- `evaluateEquals` from the source. -/
def evaluateEquals (s : CalcState) : CalcState :=
  if s.error then s
  else
    let current := parseDisplayToNumber s.display
    match s.pendingOp, s.prevValue with
    | some p, some pv =>
        match compute pv p current with
        | none => setErrorState s
        | some v =>
            let formatted := formatNumber (some v)
            { s with display := formatted,
                     previousLine := "",
                     prevValue := some (jsNumberOr0 formatted.data),
                     pendingOp := none,
                     overwrite := true,
                     lastOp := some (p, current) }
    | sp, _ =>
        match sp, s.lastOp with
        | none, some (lop, rhs) =>
            match compute current lop rhs with
            | none => setErrorState s
            | some v =>
                { s with display := formatNumber (some v), overwrite := true }
        | _, _ => { s with overwrite := true }

/-- The eight abstract actions of the engine (`handleButton`'s vocabulary). -/
inductive Action where
  | digit (d : Fin 10)
  | decimal
  | op (o : Op)
  | equals
  | clear
  | sign
  | percent
  | back
deriving DecidableEq, Repr

/-- One dispatch step (`handleButton`). -/
def step (s : CalcState) (a : Action) : CalcState :=
  match a with
  | Action.digit d => inputDigit d s
  | Action.decimal => inputDecimal s
  | Action.op o => setOperator o s
  | Action.equals => evaluateEquals s
  | Action.clear => clearAll s
  | Action.sign => toggleSign s
  | Action.percent => applyPercent s
  | Action.back => backspace s

/-- The state after a sequence of actions from the initial state. -/
def run (acts : List Action) : CalcState := acts.foldl step initState

/-! ## Claim-side predicates and invariants -/

/-- The claim's display grammar: an optionally signed string of decimal
digits containing at least one digit and at most one (trailing or embedded)
decimal point. -/
def validNumeral (cs : List Char) : Bool :=
  let body := if cs.head? = some '-' then cs.tail else cs
  !body.isEmpty && (body.all fun c => c.isDigit || c = '.') &&
    body.count '.' ≤ 1 && (body.any fun c => c.isDigit)

/-- Strengthened display grammar used as the inductive invariant: the first
character after the optional sign is a digit (this implies `validNumeral`). -/
def bodyOK (body : List Char) : Bool :=
  (match body with
   | c :: _ => c.isDigit
   | [] => false) &&
  (body.all fun c => c.isDigit || c = '.') && body.count '.' ≤ 1

/-- Display well-formedness: optional leading sign, then a `bodyOK` body. -/
def dispOK (cs : List Char) : Bool :=
  if cs.head? = some '-' then bodyOK cs.tail else bodyOK cs

/-- Modelled from the spec for claim C8: «the decimal rendering of `n`
rounded to 10 decimal places» — round half-up of `n * 10^10` (no
`Number.EPSILON` shift), rendered by the same decimal renderer. -/
def specFormatTen (n : ℚ) : String :=
  String.mk (renderScaled (round (n * 10 ^ 10)))

/-- Formalisation of C6's «transiently right after a completed equals»: the
action list ends with an `equals` that found a pending operator and stored
operand and did not enter the Error state. -/
def completedEqualsLast (acts : List Action) : Bool :=
  (acts.getLast? = some Action.equals) &&
  ((run acts.dropLast).error = false) && (run acts.dropLast).pendingOp.isSome &&
  (run acts.dropLast).prevValue.isSome && ((run acts).error = false)

/-- Claim C6 as stated, at one action sequence: `previousOperand` is present
iff an operator is pending or the sequence just completed an equals. -/
def claimC6Holds (acts : List Action) : Prop :=
  (run acts).prevValue.isSome = true ↔
    ((run acts).pendingOp.isSome = true ∨ completedEqualsLast acts = true)

instance (acts : List Action) : Decidable (claimC6Holds acts) := by
  unfold claimC6Holds; infer_instance

/-- The sign-and-nonemptiness discipline of the display: the string is
nonempty, and when it starts with `'-'` a second character exists and is
not another `'-'`.  Unlike the full numeral grammar this holds for every
display the engine can produce, exponential notation included, and it is
what keeps `toggleSign` and `backspace` from ever leaving the display
empty. -/
def signOK (cs : List Char) : Bool :=
  match cs with
  | [] => false
  | c :: t =>
      if c = '-' then
        match t with
        | [] => false
        | c2 :: _ => decide (c2 ≠ '-')
      else true

/-- The unconditional inductive invariant of the engine: the error-marker
display in the Error state, the sign/nonemptiness discipline of the
display, and the operand/operator/memory presence discipline.  (The full
numeral grammar of the display is not unconditional: `formatNumber` can
produce exponential notation; it is handled by `InvD` below under the
`safeTrace` side condition.) -/
def Inv (s : CalcState) : Prop :=
  (s.error = true → s.display = "Error") ∧
  (s.error = false → signOK s.display.data = true) ∧
  (s.pendingOp.isSome = true → s.prevValue.isSome = true) ∧
  (s.prevValue.isSome = true → s.pendingOp.isSome = true ∨ s.lastOp.isSome = true) ∧
  (s.error = true → s.pendingOp = none ∧ s.prevValue = none ∧ s.lastOp = none)

/-- A formatted value is "safe" when the double arithmetic of the source
cannot overflow (`|x| ≤ 10^297`, comfortably below the `Infinity` threshold
of `(x + EPSILON) * 1e10`) and the rounded value falls in the plain-decimal
rendering range of `String` (zero, or magnitude in `[10^-6, 10^21)`). -/
def fmtSafe (x : ℚ) : Bool :=
  decide (|x| ≤ 10 ^ 297) &&
    (decide (ratRound10 x = 0) ||
      (decide (10 ^ 4 ≤ (ratRound10 x).natAbs) && decide ((ratRound10 x).natAbs < 10 ^ 31)))

/-- One step stays in the plain-decimal regime: every value the step passes
to `formatNumber` for the main display is `fmtSafe`.  Mirrors the branch
structure of `applyPercent`, `setOperator` and `evaluateEquals`. -/
def safeStep (s : CalcState) (a : Action) : Bool :=
  match a with
  | Action.percent =>
      if s.error then true
      else
        let current := parseDisplayToNumber s.display
        match s.pendingOp, s.prevValue with
        | some _, some pv => fmtSafe (pv * (current / 100))
        | _, _ => fmtSafe (current / 100)
  | Action.op _ =>
      if s.error then true
      else if s.pendingOp.isSome ∧ s.overwrite then true
      else
        let current := parseDisplayToNumber s.display
        match s.pendingOp, s.prevValue with
        | some p, some pv =>
            match compute pv p current with
            | none => true
            | some v => fmtSafe v
        | _, _ => true
  | Action.equals =>
      if s.error then true
      else
        let current := parseDisplayToNumber s.display
        match s.pendingOp, s.prevValue with
        | some p, some pv =>
            match compute pv p current with
            | none => true
            | some v => fmtSafe v
        | sp, _ =>
            match sp, s.lastOp with
            | none, some (lop, rhs) =>
                match compute current lop rhs with
                | none => true
                | some v => fmtSafe v
            | _, _ => true
  | _ => true

/-- Every step of the action sequence, from the initial state, is
`safeStep`. -/
def safeAux (s : CalcState) : List Action → Bool
  | [] => true
  | a :: t => safeStep s a && safeAux (step s a) t

/-- The whole run stays in the plain-decimal formatting regime. -/
def safeTrace (acts : List Action) : Bool := safeAux initState acts

/-- The conditional display invariant: a well-formed numeral outside the
Error state, the error marker inside it. -/
def InvD (s : CalcState) : Prop :=
  (s.error = false → dispOK s.display.data = true) ∧
  (s.error = true → s.display = "Error")

/-! ## Claims C1–C5: concrete behaviours and local frame properties -/

/-- C1: the sequence `8`, `÷`, `0`, `=` latches the Error state — the
snapshot shows `isError = true` and the error-marker display — and a
subsequent `enterDigit 5` shows `"5"` with `isError = false` and no residual
pending operator, stored operand, secondary line, or last-operation memory. -/
theorem claim_C1 :
    ((run [Action.digit 8, Action.op Op.div, Action.digit 0, Action.equals]).error = true ∧
      (run [Action.digit 8, Action.op Op.div, Action.digit 0, Action.equals]).display = "Error") ∧
    (let s5 := run [Action.digit 8, Action.op Op.div, Action.digit 0, Action.equals,
      Action.digit 5]
     s5.display = "5" ∧ s5.error = false ∧ s5.pendingOp = none ∧ s5.prevValue = none ∧
       s5.previousLine = "" ∧ s5.lastOp = none) := by
  decide

/-- C2: `5`, `+`, `3` followed by three `=` presses shows `"8"`, `"11"`,
`"14"` — each repeated equals applies the remembered operator and right
operand (`+ 3`) to the currently displayed value — and `lastOperation`
remains `(add, 3)` across the replays. -/
theorem claim_C2 :
    (run [Action.digit 5, Action.op Op.add, Action.digit 3, Action.equals]).display = "8" ∧
    (run [Action.digit 5, Action.op Op.add, Action.digit 3, Action.equals,
      Action.equals]).display = "11" ∧
    (run [Action.digit 5, Action.op Op.add, Action.digit 3, Action.equals, Action.equals,
      Action.equals]).display = "14" ∧
    (run [Action.digit 5, Action.op Op.add, Action.digit 3, Action.equals]).lastOp
      = some (Op.add, 3) ∧
    (run [Action.digit 5, Action.op Op.add, Action.digit 3, Action.equals,
      Action.equals]).lastOp = some (Op.add, 3) ∧
    (run [Action.digit 5, Action.op Op.add, Action.digit 3, Action.equals, Action.equals,
      Action.equals]).lastOp = some (Op.add, 3) := by
  decide

/-- C3: `2`, `+`, `3`, `+`, `4`, `=` shows `"9"` — selecting a new operator
while one is pending and a right operand has been entered computes the
pending operation first, so chains evaluate left to right with no
precedence. -/
theorem claim_C3 :
    (run [Action.digit 2, Action.op Op.add, Action.digit 3, Action.op Op.add, Action.digit 4,
      Action.equals]).display = "9" := by
  decide

/-- C4: with a pending operator and stored operand, `applyPercent` displays
`previousOperand * (currentValue / 100)` formatted, sets the overwrite flag
and leaves `prevValue`/`pendingOp` (and `lastOp`, the secondary line and the
error flag) untouched; with no pending operator it displays
`currentValue / 100`.  Concretely `200`, `+`, `10`, `%` shows `"20"` and a
following `=` shows `"220"`. -/
theorem claim_C4 :
    (∀ (s : CalcState) (o : Op) (pv : ℚ), s.error = false → s.pendingOp = some o →
      s.prevValue = some pv →
      applyPercent s =
        { s with display := formatNumber (some (pv * (parseDisplayToNumber s.display / 100))),
                 overwrite := true }) ∧
    (∀ s : CalcState, s.error = false → s.pendingOp = none →
      applyPercent s =
        { s with display := formatNumber (some (parseDisplayToNumber s.display / 100)),
                 overwrite := true }) ∧
    (run [Action.digit 2, Action.digit 0, Action.digit 0, Action.op Op.add, Action.digit 1,
      Action.digit 0, Action.percent]).display = "20" ∧
    (run [Action.digit 2, Action.digit 0, Action.digit 0, Action.op Op.add, Action.digit 1,
      Action.digit 0, Action.percent, Action.equals]).display = "220" := by
  refine ⟨?_, ?_, by decide, by decide⟩
  · intro s o pv herr hop hpv
    simp only [applyPercent, herr, hop, hpv, Bool.false_eq_true, if_false]
  · intro s herr hop
    simp only [applyPercent, herr, hop, Bool.false_eq_true, if_false]

/-- C4 witness: the general parts of `claim_C4` instantiated on the state
reached by `200`, `+`, `10`, discharging the hypotheses concretely. -/
theorem claim_C4_witness :
    applyPercent (run [Action.digit 2, Action.digit 0, Action.digit 0, Action.op Op.add,
      Action.digit 1, Action.digit 0]) =
      { run [Action.digit 2, Action.digit 0, Action.digit 0, Action.op Op.add, Action.digit 1,
          Action.digit 0] with
        display := formatNumber (some ((200 : ℚ) *
          (parseDisplayToNumber (run [Action.digit 2, Action.digit 0, Action.digit 0,
            Action.op Op.add, Action.digit 1, Action.digit 0]).display / 100))),
        overwrite := true } ∧
    applyPercent initState =
      { initState with
        display := formatNumber (some (parseDisplayToNumber initState.display / 100)),
        overwrite := true } := by
  exact ⟨claim_C4.1 _ Op.add 200 (by decide) (by decide) (by decide),
    claim_C4.2.1 initState rfl rfl⟩

/-- C5: whenever an operator is pending and the overwrite flag is set,
`setOperator op` only replaces the pending operator and rewrites the
secondary line to the formatted stored operand followed by the new operator
symbol — no computation, and `display`, `prevValue`, `lastOp`, `overwrite`
and the error flag are unchanged.  Concretely `5`, `+`, `×` gives secondary
line `"5 ×"`, pending operator `×`, stored operand still `5`. -/
theorem claim_C5 :
    (∀ (s : CalcState) (o p : Op) (pv : ℚ), s.error = false → s.pendingOp = some p →
      s.overwrite = true → s.prevValue = some pv →
      setOperator o s =
        { s with pendingOp := some o,
                 previousLine := formatNumber (some pv) ++ " " ++ opSymbol o }) ∧
    (let s := run [Action.digit 5, Action.op Op.add, Action.op Op.mul]
     s.previousLine = "5 ×" ∧ s.pendingOp = some Op.mul ∧ s.prevValue = some 5 ∧
       s.display = "5" ∧ s.overwrite = true ∧ s.lastOp = none ∧ s.error = false) := by
  refine ⟨?_, by decide⟩
  intro s o p pv herr hop hov hpv
  simp only [setOperator, herr, Bool.false_eq_true, if_false, hop, hov, Option.isSome_some,
    true_and, if_true, hpv, Option.getD_some]

/-- C5 witness: the general part of `claim_C5` instantiated on the state
reached by `5`, `+`, with the hypotheses discharged concretely. -/
theorem claim_C5_witness :
    setOperator Op.mul (run [Action.digit 5, Action.op Op.add]) =
      { run [Action.digit 5, Action.op Op.add] with
        pendingOp := some Op.mul,
        previousLine := formatNumber (some (5 : ℚ)) ++ " " ++ opSymbol Op.mul } :=
  claim_C5.1 _ Op.mul Op.add 5 (by decide) (by decide) (by decide) (by decide)

/-! ## Helper lemmas: digit characters -/

theorem chVal_digitChar {d : ℕ} (h : d < 10) : chVal (digitChar d) = d := by
  interval_cases d <;> decide

theorem isDigit_digitChar {d : ℕ} (h : d < 10) : (digitChar d).isDigit = true := by
  interval_cases d <;> decide

theorem digitChar_eq_zero_iff {d : ℕ} (h : d < 10) : digitChar d = '0' ↔ d = 0 := by
  interval_cases d <;> decide

theorem ne_dot_of_isDigit {c : Char} (h : c.isDigit = true) : c ≠ '.' := by
  intro hc; subst hc; exact absurd h (by decide)

theorem ne_dash_of_isDigit {c : Char} (h : c.isDigit = true) : c ≠ '-' := by
  intro hc; subst hc; exact absurd h (by decide)

theorem ne_plus_of_isDigit {c : Char} (h : c.isDigit = true) : c ≠ '+' := by
  intro hc; subst hc; exact absurd h (by decide)

/-! ## Helper lemmas: `natDigits` agrees with `Nat.digits 10` -/

theorem digitsAux_eq (fuel : ℕ) :
    ∀ n, n ≤ fuel → digitsAux fuel n = Nat.digits 10 n := by
  induction fuel with
  | zero =>
      intro n h
      obtain rfl := Nat.le_zero.mp h
      simp [digitsAux]
  | succ fuel ih =>
      intro n h
      by_cases hn : n = 0
      · subst hn; simp [digitsAux]
      · have hdiv : n / 10 ≤ fuel := by
          have := Nat.div_lt_self (Nat.pos_of_ne_zero hn) (by norm_num : 1 < 10)
          omega
        simp only [digitsAux, if_neg hn]
        rw [ih _ hdiv, ← Nat.digits_def' (by norm_num : (1 : ℕ) < 10) (Nat.pos_of_ne_zero hn)]

theorem natDigits_eq (n : ℕ) : natDigits n = Nat.digits 10 n :=
  digitsAux_eq n n le_rfl

theorem natDigits_lt {n : ℕ} : ∀ d ∈ natDigits n, d < 10 := by
  rw [natDigits_eq]
  exact fun d hd => Nat.digits_lt_base (by norm_num) hd

theorem ofDigits_natDigits (n : ℕ) : Nat.ofDigits 10 (natDigits n) = n := by
  rw [natDigits_eq]; exact Nat.ofDigits_digits 10 n

theorem natDigits_ne_nil {n : ℕ} (h : n ≠ 0) : natDigits n ≠ [] := by
  rw [natDigits_eq]; exact Nat.digits_ne_nil_iff_ne_zero.mpr h

theorem natDigits_len_le {f : ℕ} (h : f < 10 ^ 10) : (natDigits f).length ≤ 10 := by
  rw [natDigits_eq]
  by_cases hf : f = 0
  · subst hf; simp
  · have h1 : 10 ^ (Nat.digits 10 f).length ≤ 10 * f :=
      Nat.base_pow_length_digits_le 10 f (by norm_num) hf
    have h2 : 10 * f < 10 ^ 11 := by
      have : 10 * f < 10 * 10 ^ 10 := by omega
      calc 10 * f < 10 * 10 ^ 10 := this
        _ = 10 ^ 11 := by ring
    have h3 : 10 ^ (Nat.digits 10 f).length < 10 ^ 11 := lt_of_le_of_lt h1 h2
    have := (Nat.pow_lt_pow_iff_right (by norm_num : 1 < 10)).mp h3
    omega

/-! ## Helper lemmas: `parseDigits` and `renderNat` -/

theorem parseDigits_snoc (a : List Char) (c : Char) :
    parseDigits (a ++ [c]) = 10 * parseDigits a + chVal c := by
  simp [parseDigits, List.foldl_append]

theorem parseDigits_reverse_map {l : List ℕ} (h : ∀ d ∈ l, d < 10) :
    parseDigits ((l.reverse).map digitChar) = Nat.ofDigits 10 l := by
  induction l with
  | nil => simp [parseDigits, Nat.ofDigits_nil]
  | cons d t ih =>
      have hd : d < 10 := h d (List.mem_cons_self d t)
      rw [List.reverse_cons, List.map_append, List.map_cons, List.map_nil, parseDigits_snoc,
        ih fun x hx => h x (List.mem_cons_of_mem d hx), chVal_digitChar hd,
        Nat.ofDigits_cons]
      ring

theorem parseDigits_renderNat (n : ℕ) : parseDigits (renderNat n) = n := by
  by_cases hn : n = 0
  · subst hn; decide
  · simp only [renderNat, if_neg hn]
    rw [parseDigits_reverse_map natDigits_lt, ofDigits_natDigits]

theorem renderNat_ne_nil (n : ℕ) : renderNat n ≠ [] := by
  unfold renderNat
  split
  · simp
  · next hn =>
      simp only [ne_eq, List.map_eq_nil_iff, List.reverse_eq_nil_iff]
      exact natDigits_ne_nil hn

theorem renderNat_all_digit (n : ℕ) : ∀ c ∈ renderNat n, c.isDigit = true := by
  unfold renderNat
  split
  · intro c hc
    simp only [List.mem_singleton] at hc
    subst hc; decide
  · intro c hc
    simp only [List.mem_map, List.mem_reverse] at hc
    obtain ⟨d, hd, rfl⟩ := hc
    exact isDigit_digitChar (natDigits_lt d hd)

theorem renderNat_cons (n : ℕ) :
    ∃ c t, renderNat n = c :: t ∧ c.isDigit = true := by
  obtain ⟨c, t, h⟩ := List.exists_cons_of_ne_nil (renderNat_ne_nil n)
  exact ⟨c, t, h, renderNat_all_digit n c (h ▸ List.mem_cons_self c t)⟩

/-! ## Helper lemmas: `takeWhile` / `dropWhile` -/

theorem takeWhile_all {α} {p : α → Bool} {a : List α} (ha : ∀ x ∈ a, p x = true) :
    a.takeWhile p = a := by
  induction a with
  | nil => rfl
  | cons x t ih =>
      rw [List.takeWhile_cons, ha x (List.mem_cons_self x t), if_pos rfl]
      rw [ih fun y hy => ha y (List.mem_cons_of_mem x hy)]

theorem dropWhile_all {α} {p : α → Bool} {a : List α} (ha : ∀ x ∈ a, p x = true) :
    a.dropWhile p = [] := by
  induction a with
  | nil => rfl
  | cons x t ih =>
      rw [List.dropWhile_cons, ha x (List.mem_cons_self x t)]
      simp only [if_pos]
      exact ih fun y hy => ha y (List.mem_cons_of_mem x hy)

theorem takeWhile_append_stop {α} {p : α → Bool} {a : List α} {c : α} {b : List α}
    (ha : ∀ x ∈ a, p x = true) (hc : p c = false) :
    (a ++ c :: b).takeWhile p = a := by
  induction a with
  | nil => simp [List.takeWhile_cons, hc]
  | cons x t ih =>
      rw [List.cons_append, List.takeWhile_cons, ha x (List.mem_cons_self x t), if_pos rfl,
        ih fun y hy => ha y (List.mem_cons_of_mem x hy)]

theorem dropWhile_append_stop {α} {p : α → Bool} {a : List α} {c : α} {b : List α}
    (ha : ∀ x ∈ a, p x = true) (hc : p c = false) :
    (a ++ c :: b).dropWhile p = c :: b := by
  induction a with
  | nil => simp [List.dropWhile_cons, hc]
  | cons x t ih =>
      rw [List.cons_append, List.dropWhile_cons, ha x (List.mem_cons_self x t)]
      simp only [if_pos]
      exact ih fun y hy => ha y (List.mem_cons_of_mem x hy)

theorem dropWhile_head_false {α} {p : α → Bool} :
    ∀ {l : List α} {c : α} {t : List α}, l.dropWhile p = c :: t → p c = false := by
  intro l
  induction l with
  | nil => intro c t h; exact absurd h (by simp)
  | cons x xs ih =>
      intro c t h
      rw [List.dropWhile_cons] at h
      by_cases hx : p x = true
      · rw [if_pos hx] at h; exact ih h
      · rw [if_neg hx] at h
        obtain ⟨rfl, rfl⟩ : x = c ∧ xs = t := by
          injection h with h1 h2; exact ⟨h1, h2⟩
        simpa using hx

/-! ## Helper lemmas: `fracPadded` -/

theorem ofDigits_all_zero {l : List ℕ} (h : ∀ x ∈ l, x = 0) :
    Nat.ofDigits 10 l = 0 := by
  induction l with
  | nil => simp [Nat.ofDigits_nil]
  | cons d t ih =>
      rw [Nat.ofDigits_cons, h d (List.mem_cons_self d t),
        ih fun x hx => h x (List.mem_cons_of_mem d hx)]

theorem fracPadded_length {f : ℕ} (h : f < 10 ^ 10) : (fracPadded f).length = 10 := by
  have := natDigits_len_le h
  simp only [fracPadded, List.length_append, List.length_replicate]
  omega

theorem fracPadded_lt {f : ℕ} : ∀ d ∈ fracPadded f, d < 10 := by
  intro d hd
  rcases List.mem_append.mp hd with h | h
  · exact natDigits_lt d h
  · have := List.eq_of_mem_replicate h
    omega

theorem ofDigits_fracPadded (f : ℕ) : Nat.ofDigits 10 (fracPadded f) = f := by
  rw [fracPadded, Nat.ofDigits_append, ofDigits_natDigits,
    ofDigits_all_zero fun x hx => List.eq_of_mem_replicate hx]
  simp

/-! ## Helper lemmas: `trimZeros` and the shape of `renderScaled` -/

theorem contains_eq_decide_mem (l : List Char) (c : Char) :
    l.contains c = decide (c ∈ l) := by
  simp [List.contains]

theorem trimZeros_of_no_dot {cs : List Char} (h : '.' ∉ cs) : trimZeros cs = cs := by
  rw [trimZeros, contains_eq_decide_mem]
  simp [h]

theorem revStrip_block {Z D : List ℕ} (hZ : ∀ x ∈ Z, x = 0) {d₀ : ℕ} {D' : List ℕ}
    (hD : D = d₀ :: D') (hd₀ : d₀ ≠ 0) (hd₀10 : d₀ < 10) (rest : List Char) :
    revStrip ((Z ++ D).map digitChar ++ '.' :: rest) = D.map digitChar ++ '.' :: rest := by
  have hne0 : digitChar d₀ ≠ '0' := fun hc => hd₀ ((digitChar_eq_zero_iff hd₀10).mp hc)
  have hZall : ∀ x ∈ Z.map digitChar, decide (x = '0') = true := by
    intro x hx
    obtain ⟨z, hz, rfl⟩ := List.mem_map.mp hx
    rw [hZ z hz]
    decide
  have hshape : (Z ++ D).map digitChar ++ '.' :: rest
      = Z.map digitChar ++ digitChar d₀ :: (D'.map digitChar ++ '.' :: rest) := by
    rw [hD]
    simp [List.map_append]
  cases Z with
  | nil =>
      rw [hshape]
      rw [revStrip]
      simp only [List.map_nil, List.nil_append, List.head?_cons]
      rw [if_neg (by simpa using hne0)]
      rw [hD]; simp
  | cons z Z' =>
      have hz0 : z = 0 := hZ z (List.mem_cons_self z Z')
      rw [hshape]
      rw [revStrip]
      have hhead : ((z :: Z').map digitChar ++ digitChar d₀ :: (D'.map digitChar ++ '.' :: rest)).head?
          = some '0' := by
        rw [hz0]; rfl
      rw [if_pos hhead]
      rw [dropWhile_append_stop hZall (by simpa using hne0)]
      simp only [List.head?_cons]
      rw [if_neg (by simpa using ne_dot_of_isDigit (isDigit_digitChar hd₀10))]
      rw [hD]; simp

theorem trimZeros_frac {Z D : List ℕ} (hZ : ∀ x ∈ Z, x = 0) {d₀ : ℕ} {D' : List ℕ}
    (hD : D = d₀ :: D') (hd₀ : d₀ ≠ 0) (hd₀10 : d₀ < 10) (pre : List Char) :
    trimZeros (pre ++ '.' :: (((Z ++ D).reverse).map digitChar))
      = pre ++ '.' :: ((D.reverse).map digitChar) := by
  have hmem : '.' ∈ pre ++ '.' :: (((Z ++ D).reverse).map digitChar) :=
    List.mem_append_right _ (List.mem_cons_self _ _)
  rw [trimZeros, contains_eq_decide_mem, if_pos (by simp [hmem])]
  have hrev : (pre ++ '.' :: (((Z ++ D).reverse).map digitChar)).reverse
      = (Z ++ D).map digitChar ++ '.' :: pre.reverse := by
    rw [List.reverse_append, List.reverse_cons, List.map_reverse, List.reverse_reverse]
    simp [List.append_assoc]
  rw [hrev, revStrip_block hZ hD hd₀ hd₀10]
  rw [List.reverse_append, List.reverse_cons, List.map_reverse]
  simp [List.append_assoc]

theorem renderScaled_exp {r : ℤ}
    (hexp : r.natAbs ≠ 0 ∧ (r.natAbs < 10 ^ 4 ∨ 10 ^ 31 ≤ r.natAbs)) :
    renderScaled r
      = (if r < 0 then [ '-' ] else []) ++ expChars r.natAbs := by
  simp only [renderScaled, if_pos hexp]
  by_cases hr : r < 0
  · rw [if_pos hr, if_pos hr, List.singleton_append]
  · rw [if_neg hr, if_neg hr, List.nil_append]

theorem renderScaled_int {r : ℤ}
    (hdec : ¬(r.natAbs ≠ 0 ∧ (r.natAbs < 10 ^ 4 ∨ 10 ^ 31 ≤ r.natAbs)))
    (hf : r.natAbs % 10 ^ 10 = 0) :
    renderScaled r
      = (if r < 0 then [ '-' ] else []) ++ renderNat (r.natAbs / 10 ^ 10) := by
  have hall := renderNat_all_digit (r.natAbs / 10 ^ 10)
  have hnodot : ∀ cs, cs = renderNat (r.natAbs / 10 ^ 10) → '.' ∉ cs := by
    intro cs hcs hc
    exact ne_dot_of_isDigit (hall '.' (hcs ▸ hc)) rfl
  simp only [renderScaled, if_neg hdec, hf, if_pos rfl, reduceIte]
  by_cases hr : r < 0
  · rw [if_pos hr, if_pos hr, trimZeros_of_no_dot, List.singleton_append]
    intro hc
    rcases List.mem_cons.mp hc with h | h
    · exact absurd h.symm (by decide)
    · exact hnodot _ rfl h
  · rw [if_neg hr, if_neg hr, trimZeros_of_no_dot (hnodot _ rfl), List.nil_append]

theorem trim_body_frac {f : ℕ} (hf : f ≠ 0) (pre : List Char) :
    trimZeros (pre ++ '.' :: (((fracPadded f).reverse).map digitChar))
      = pre ++ '.' ::
          ((((fracPadded f).dropWhile fun d => decide (d = 0)).reverse).map digitChar) := by
  set Z := (fracPadded f).takeWhile (fun d => decide (d = 0)) with hZdef
  set D := (fracPadded f).dropWhile (fun d => decide (d = 0)) with hDdef
  have hZD : Z ++ D = fracPadded f := by
    rw [hZdef, hDdef]; exact List.takeWhile_append_dropWhile _ _
  have hZ0 : ∀ x ∈ Z, x = 0 := by
    intro x hx
    have := List.mem_takeWhile_imp (hZdef ▸ hx)
    simpa using this
  have hDne : D ≠ [] := by
    intro hnil
    apply hf
    have hallz : ∀ x ∈ fracPadded f, x = 0 := by
      intro x hx
      rw [← hZD, hnil, List.append_nil] at hx
      exact hZ0 x hx
    rw [← ofDigits_fracPadded f]
    exact ofDigits_all_zero hallz
  obtain ⟨d₀, D', hD⟩ := List.exists_cons_of_ne_nil hDne
  have hd₀mem : d₀ ∈ fracPadded f := by
    rw [← hZD]
    exact List.mem_append_right _ (hD ▸ List.mem_cons_self d₀ D')
  have hd₀10 : d₀ < 10 := fracPadded_lt d₀ hd₀mem
  have hd₀0 : d₀ ≠ 0 := by
    have := dropWhile_head_false (hDdef ▸ hD : (fracPadded f).dropWhile _ = d₀ :: D')
    simpa using this
  rw [← hZD]
  exact trimZeros_frac hZ0 hD hd₀0 hd₀10 pre

theorem renderScaled_frac {r : ℤ}
    (hdec : ¬(r.natAbs ≠ 0 ∧ (r.natAbs < 10 ^ 4 ∨ 10 ^ 31 ≤ r.natAbs)))
    (hf : r.natAbs % 10 ^ 10 ≠ 0) :
    renderScaled r
      = (if r < 0 then [ '-' ] else []) ++
          (renderNat (r.natAbs / 10 ^ 10) ++ '.' ::
            (((((fracPadded (r.natAbs % 10 ^ 10)).dropWhile
                fun d => decide (d = 0)).reverse).map digitChar))) := by
  simp only [renderScaled, if_neg hdec, if_neg hf]
  by_cases hr : r < 0
  · simp only [if_pos hr]
    have hsh : ('-' :: (renderNat (r.natAbs / 10 ^ 10) ++ '.' ::
        (((fracPadded (r.natAbs % 10 ^ 10)).reverse).map digitChar)))
        = ('-' :: renderNat (r.natAbs / 10 ^ 10)) ++ '.' ::
            (((fracPadded (r.natAbs % 10 ^ 10)).reverse).map digitChar) := by
      simp
    rw [hsh, trim_body_frac hf]
    simp
  · simp only [if_neg hr]
    rw [trim_body_frac hf]
    simp

/-! ## Helper lemmas: parsing rendered strings -/

theorem jsNumberUnsigned_renderNat (q : ℕ) :
    jsNumberUnsigned (renderNat q) = some (q : ℚ) := by
  have hall := renderNat_all_digit q
  simp only [jsNumberUnsigned]
  rw [takeWhile_all hall, dropWhile_all hall]
  simp [List.isEmpty_iff, renderNat_ne_nil q, parseDigits_renderNat]

theorem jsNumberUnsigned_fracForm (q : ℕ) {D : List ℕ}
    (hlt : ∀ d ∈ D, d < 10) :
    jsNumberUnsigned (renderNat q ++ '.' :: ((D.reverse).map digitChar))
      = some ((q : ℚ) + ((Nat.ofDigits 10 D : ℕ) : ℚ) / 10 ^ D.length) := by
  have hall := renderNat_all_digit q
  have hdot : ('.' : Char).isDigit = false := by decide
  have hfd : ∀ c ∈ (D.reverse).map digitChar, c.isDigit = true := by
    intro c hc
    obtain ⟨d, hd, rfl⟩ := List.mem_map.mp hc
    exact isDigit_digitChar (hlt d (List.mem_reverse.mp hd))
  have hne : (renderNat q).isEmpty = false := by
    simp [List.isEmpty_iff, renderNat_ne_nil q]
  simp only [jsNumberUnsigned]
  rw [takeWhile_append_stop hall hdot, dropWhile_append_stop hall hdot]
  rw [if_neg (by simp), if_pos (by simp)]
  rw [List.tail_cons, takeWhile_all hfd, dropWhile_all hfd, hne, Bool.false_and,
    if_neg (by simp), if_pos rfl]
  rw [parseDigits_renderNat, parseDigits_reverse_map hlt]
  simp

/-! ## Helper lemmas: parsing exponential renderings -/

theorem parseDigits_acc (cs : List Char) :
    ∀ a0 : ℕ, List.foldl (fun a c => 10 * a + chVal c) a0 cs
      = a0 * 10 ^ cs.length + parseDigits cs := by
  induction cs with
  | nil =>
      intro a0
      simp [parseDigits]
  | cons c t ih =>
      intro a0
      have hp : parseDigits (c :: t)
          = List.foldl (fun a c => 10 * a + chVal c) (10 * 0 + chVal c) t := rfl
      rw [List.foldl_cons, ih (10 * a0 + chVal c), hp, ih (10 * 0 + chVal c),
        List.length_cons]
      ring

theorem parseDigits_cons (c : Char) (t : List Char) :
    parseDigits (c :: t) = chVal c * 10 ^ t.length + parseDigits t := by
  have hp : parseDigits (c :: t)
      = List.foldl (fun a c => 10 * a + chVal c) (10 * 0 + chVal c) t := rfl
  rw [hp, parseDigits_acc t (10 * 0 + chVal c)]
  ring

theorem parseDigits_singleton (c : Char) : parseDigits [c] = chVal c := by
  simp [parseDigits]

theorem jsExponent_render (e : ℤ) :
    jsExponent ('e' :: (if e < 0 then '-' else '+') :: renderNat e.natAbs) = some e := by
  have hall : ((renderNat e.natAbs).all fun c => c.isDigit) = true :=
    List.all_eq_true.mpr (renderNat_all_digit e.natAbs)
  have hne : renderNat e.natAbs ≠ [] := renderNat_ne_nil e.natAbs
  by_cases he : e < 0
  · rw [if_pos he]
    simp only [jsExponent, List.head?_cons, List.tail_cons]
    rw [if_pos (Or.inl trivial), if_pos (Or.inl trivial), if_pos (And.intro hne hall),
      if_pos (by decide), parseDigits_renderNat]
    congr 1
    omega
  · rw [if_neg he]
    simp only [jsExponent, List.head?_cons, List.tail_cons]
    have hns : ¬decide ((some '+' : Option Char) = some '-') = true := by decide
    rw [if_pos (Or.inl trivial), if_pos (Or.inr trivial), if_pos (And.intro hne hall),
      if_neg hns, parseDigits_renderNat]
    congr 1
    omega

theorem ofDigits_dropWhile_zero (l : List ℕ) :
    Nat.ofDigits 10 (l.dropWhile fun d => decide (d = 0)) *
        10 ^ (l.length - (l.dropWhile fun d => decide (d = 0)).length)
      = Nat.ofDigits 10 l := by
  induction l with
  | nil => simp
  | cons d t ih =>
      by_cases hd : d = 0
      · subst hd
        have hstep : ((0 : ℕ) :: t).dropWhile (fun d => decide (d = 0))
            = t.dropWhile fun d => decide (d = 0) := by
          simp [List.dropWhile_cons]
        rw [hstep]
        have hle : (t.dropWhile fun d => decide (d = 0)).length ≤ t.length :=
          (List.dropWhile_sublist _).length_le
        have hlen : ((0 : ℕ) :: t).length - (t.dropWhile fun d => decide (d = 0)).length
            = (t.length - (t.dropWhile fun d => decide (d = 0)).length) + 1 := by
          simp only [List.length_cons]
          omega
        rw [hlen, pow_succ, ← mul_assoc, ih, Nat.ofDigits_cons]
        ring
      · have hstep : (d :: t).dropWhile (fun d => decide (d = 0)) = d :: t := by
          simp [List.dropWhile_cons, hd]
        rw [hstep]
        simp

theorem sigLEOf_lt {m : ℕ} : ∀ d ∈ sigLEOf m, d < 10 := by
  intro d hd
  apply natDigits_lt
  rw [← List.takeWhile_append_dropWhile (fun d => decide (d = 0)) (natDigits m)]
  exact List.mem_append_right _ hd

theorem sigLEOf_ne_nil {m : ℕ} (hm : m ≠ 0) : sigLEOf m ≠ [] := by
  intro hnil
  apply hm
  have hallz : ∀ x ∈ natDigits m, x = 0 := by
    intro x hx
    rw [← List.takeWhile_append_dropWhile (fun d => decide (d = 0)) (natDigits m)] at hx
    rcases List.mem_append.mp hx with h | h
    · simpa using List.mem_takeWhile_imp h
    · exfalso
      have hd : (natDigits m).dropWhile (fun d => decide (d = 0)) = [] := hnil
      rw [hd] at h
      simp at h
  rw [← ofDigits_natDigits m]
  exact ofDigits_all_zero hallz

theorem sigLEOf_spec (m : ℕ) :
    Nat.ofDigits 10 (sigLEOf m)
        * 10 ^ ((natDigits m).length - (sigLEOf m).length) = m := by
  have h := ofDigits_dropWhile_zero (natDigits m)
  rw [ofDigits_natDigits] at h
  exact h

theorem sigRev_facts {m : ℕ} (hm : m ≠ 0) :
    ∃ d₀ rest, (sigLEOf m).reverse = d₀ :: rest ∧ d₀ < 10 ∧ ∀ d ∈ rest, d < 10 := by
  have hne : (sigLEOf m).reverse ≠ [] := by
    simp only [ne_eq, List.reverse_eq_nil_iff]
    exact sigLEOf_ne_nil hm
  obtain ⟨d₀, rest, hrev⟩ := List.exists_cons_of_ne_nil hne
  have hmem : ∀ d ∈ (sigLEOf m).reverse, d < 10 := by
    intro d hd
    exact sigLEOf_lt d (List.mem_reverse.mp hd)
  refine ⟨d₀, rest, hrev, ?_, ?_⟩
  · apply hmem d₀
    rw [hrev]
    exact List.mem_cons_self d₀ rest
  · intro d hd
    apply hmem d
    rw [hrev]
    exact List.mem_cons_of_mem d₀ hd

theorem expChars_cons {m : ℕ} {d₀ : ℕ} {rest : List ℕ}
    (hrev : (sigLEOf m).reverse = d₀ :: rest) :
    expChars m
      = digitChar d₀ ::
          ((if rest = [] then [] else '.' :: rest.map digitChar) ++
            'e' :: (if expEOf m < 0 then '-' else '+') :: renderNat (expEOf m).natAbs) := by
  unfold expChars
  rw [hrev]

theorem jsNumberUnsigned_expChars {m : ℕ} (hm : m ≠ 0) :
    jsNumberUnsigned (expChars m) = some ((m : ℚ) / 10 ^ 10) := by
  obtain ⟨d₀, rest, hrev, hd10, hrest10⟩ := sigRev_facts hm
  have hdd : (digitChar d₀).isDigit = true := isDigit_digitChar hd10
  have hdot : ('.' : Char).isDigit = false := by decide
  have he : ('e' : Char).isDigit = false := by decide
  have hsing : ∀ x ∈ [digitChar d₀], x.isDigit = true := by
    intro x hx
    rw [List.mem_singleton.mp hx]
    exact hdd
  have hk : (sigLEOf m).length = rest.length + 1 := by
    have hlen := congrArg List.length hrev
    simpa using hlen
  have hS : Nat.ofDigits 10 (sigLEOf m)
      * 10 ^ ((natDigits m).length - (sigLEOf m).length) = m := sigLEOf_spec m
  have hparse : parseDigits (((sigLEOf m).reverse).map digitChar)
      = Nat.ofDigits 10 (sigLEOf m) := parseDigits_reverse_map sigLEOf_lt
  rw [hrev, List.map_cons, parseDigits_cons, chVal_digitChar hd10, List.length_map]
    at hparse
  set t := (natDigits m).length - (sigLEOf m).length with htdef
  have h10 : (10 : ℚ) ≠ 0 := by norm_num
  have hzp : (10 : ℚ) ^ expEOf m = 10 ^ (rest.length + t) / 10 ^ 10 := by
    have hcast : expEOf m = ((rest.length + t : ℕ) : ℤ) - ((10 : ℕ) : ℤ) := by
      unfold expEOf
      rw [← htdef, hk]
      push_cast
      ring
    rw [hcast, zpow_sub₀ h10, zpow_natCast, zpow_natCast]
  have hmQ : (m : ℚ)
      = ((d₀ : ℚ) * 10 ^ rest.length + (parseDigits (rest.map digitChar) : ℚ))
          * 10 ^ t := by
    have hn : (d₀ * 10 ^ rest.length + parseDigits (rest.map digitChar)) * 10 ^ t = m := by
      rw [hparse]
      exact hS
    exact_mod_cast hn.symm
  cases rest with
  | nil =>
      have hmQ' : (m : ℚ) = (d₀ : ℚ) * 10 ^ t := by
        rw [hmQ]
        have hpd0 : parseDigits (List.map digitChar []) = 0 := rfl
        rw [hpd0]
        push_cast
        simp only [List.length_nil, pow_zero]
        ring
      rw [expChars_cons hrev, if_pos rfl, List.nil_append, ← List.singleton_append]
      simp only [jsNumberUnsigned]
      rw [takeWhile_append_stop hsing he, dropWhile_append_stop hsing he]
      rw [if_neg (by simp)]
      simp only [List.head?_cons]
      rw [if_neg (by decide), if_neg (by simp), jsExponent_render, Option.map_some']
      congr 1
      rw [parseDigits_singleton, chVal_digitChar hd10, hzp, hmQ']
      simp only [List.length_nil, Nat.zero_add]
      ring
  | cons r1 rs =>
      have hfd : ∀ c ∈ (r1 :: rs).map digitChar, c.isDigit = true := by
        intro c hc
        obtain ⟨d, hd, rfl⟩ := List.mem_map.mp hc
        exact isDigit_digitChar (hrest10 d hd)
      rw [expChars_cons hrev, if_neg (by simp), List.cons_append,
        ← List.singleton_append]
      simp only [jsNumberUnsigned]
      rw [takeWhile_append_stop hsing hdot, dropWhile_append_stop hsing hdot]
      rw [if_neg (by simp)]
      simp only [List.head?_cons, List.tail_cons]
      rw [if_pos trivial]
      rw [takeWhile_append_stop hfd he, dropWhile_append_stop hfd he]
      rw [if_neg (by simp), if_neg (by simp), jsExponent_render, Option.map_some']
      congr 1
      rw [parseDigits_singleton, chVal_digitChar hd10, hzp, hmQ, List.length_map]
      have hL : ((10 : ℚ) ^ (r1 :: rs).length) ≠ 0 := by positivity
      have hten : ((10 : ℚ) ^ 10) ≠ 0 := by positivity
      field_simp
      ring

theorem jsNumber_expChars {m : ℕ} (hm : m ≠ 0) :
    jsNumber (expChars m) = some ((m : ℚ) / 10 ^ 10) := by
  obtain ⟨d₀, rest, hrev, hd10, _⟩ := sigRev_facts hm
  have hcd : (digitChar d₀).isDigit = true := isDigit_digitChar hd10
  rw [expChars_cons hrev]
  simp only [jsNumber, List.head?_cons]
  rw [if_neg (by simpa using ne_dash_of_isDigit hcd),
    if_neg (by simpa using ne_plus_of_isDigit hcd), ← expChars_cons hrev,
    jsNumberUnsigned_expChars hm]

theorem getLast?_append_some {α} {l₂ : List α} {c : α} (l₁ : List α)
    (h : l₂.getLast? = some c) : (l₁ ++ l₂).getLast? = some c := by
  rw [List.getLast?_append, h]
  rfl

theorem expChars_contains_e {m : ℕ} (hm : m ≠ 0) : 'e' ∈ expChars m := by
  obtain ⟨d₀, rest, hrev, _, _⟩ := sigRev_facts hm
  rw [expChars_cons hrev]
  apply List.mem_cons_of_mem
  apply List.mem_append_right
  exact List.mem_cons_self _ _

theorem expChars_getLast {m : ℕ} (hm : m ≠ 0) :
    ∃ c, (expChars m).getLast? = some c ∧ c.isDigit = true := by
  obtain ⟨d₀, rest, hrev, _, _⟩ := sigRev_facts hm
  have hne : renderNat (expEOf m).natAbs ≠ [] := renderNat_ne_nil _
  have hlast : (renderNat (expEOf m).natAbs).getLast? =
      some ((renderNat (expEOf m).natAbs).getLast hne) :=
    List.getLast?_eq_getLast _ hne
  refine ⟨(renderNat (expEOf m).natAbs).getLast hne, ?_, ?_⟩
  · rw [expChars_cons hrev, ← List.singleton_append]
    apply getLast?_append_some
    apply getLast?_append_some
    have hsplit : ('e' :: (if expEOf m < 0 then '-' else '+')
          :: renderNat (expEOf m).natAbs)
        = [ 'e', if expEOf m < 0 then '-' else '+' ] ++ renderNat (expEOf m).natAbs := rfl
    rw [hsplit]
    exact getLast?_append_some _ hlast
  · exact renderNat_all_digit _ _ (List.getLast_mem hne)

theorem scaled_value_eq {q g k len : ℕ} (hk : k + len = 10) :
    (q : ℚ) + (g : ℚ) / 10 ^ len
      = ((10 ^ 10 * q + 10 ^ k * g : ℕ) : ℚ) / 10 ^ 10 := by
  have h3 : (10 : ℕ) ^ 10 = 10 ^ k * 10 ^ len := by rw [← pow_add, hk]
  have h2 : ((10 : ℚ) ^ k * 10 ^ len) = 10 ^ 10 := by rw [← pow_add, hk]
  have hkz : ((10 : ℚ) ^ k) ≠ 0 := by positivity
  have hlz : ((10 : ℚ) ^ len) ≠ 0 := by positivity
  rw [h3, ← h2]
  push_cast
  field_simp
  ring

theorem jsNumber_renderScaled (r : ℤ) :
    jsNumber (renderScaled r) = some ((r : ℚ) / 10 ^ 10) := by
  have h10ne : ((10 : ℚ) ^ 10) ≠ 0 := by positivity
  have hmod : 10 ^ 10 * (r.natAbs / 10 ^ 10) + r.natAbs % 10 ^ 10 = r.natAbs :=
    Nat.div_add_mod r.natAbs (10 ^ 10)
  by_cases hdec : r.natAbs ≠ 0 ∧ (r.natAbs < 10 ^ 4 ∨ 10 ^ 31 ≤ r.natAbs)
  · -- exponential rendering
    rw [renderScaled_exp hdec]
    by_cases hr : r < 0
    · rw [if_pos hr, List.singleton_append]
      simp only [jsNumber, List.head?_cons, List.tail_cons, if_pos rfl, if_true,
        eq_self_iff_true]
      rw [jsNumberUnsigned_expChars hdec.1, Option.map_some']
      congr 1
      have hneg : ((r.natAbs : ℕ) : ℚ) = -(r : ℚ) := by
        have h1 : (r.natAbs : ℤ) = -r := by omega
        rw [← Int.cast_natCast, h1, Int.cast_neg]
      rw [hneg]
      ring
    · rw [if_neg hr, List.nil_append, jsNumber_expChars hdec.1]
      congr 1
      have hpos : ((r.natAbs : ℕ) : ℚ) = (r : ℚ) := by
        have h1 : (r.natAbs : ℤ) = r := by omega
        rw [← Int.cast_natCast, h1]
      rw [hpos]
  · by_cases hf : r.natAbs % 10 ^ 10 = 0
    · -- integer rendering
      rw [renderScaled_int hdec hf]
      obtain ⟨c, t, hct, hcd⟩ := renderNat_cons (r.natAbs / 10 ^ 10)
      have hqm : 10 ^ 10 * (r.natAbs / 10 ^ 10) = r.natAbs := by omega
      have hqmQ : (10 : ℚ) ^ 10 * ((r.natAbs / 10 ^ 10 : ℕ) : ℚ) = ((r.natAbs : ℕ) : ℚ) := by
        exact_mod_cast congrArg (fun n : ℕ => (n : ℚ)) hqm
      by_cases hr : r < 0
      · rw [if_pos hr, List.singleton_append]
        simp only [jsNumber, List.head?_cons, List.tail_cons, if_pos rfl, if_true,
          eq_self_iff_true]
        rw [jsNumberUnsigned_renderNat, Option.map_some']
        congr 1
        have hneg : ((r.natAbs : ℕ) : ℚ) = -(r : ℚ) := by
          have h1 : (r.natAbs : ℤ) = -r := by omega
          rw [← Int.cast_natCast, h1, Int.cast_neg]
        rw [eq_div_iff h10ne]
        rw [hneg] at hqmQ
        linarith [hqmQ]
      · rw [if_neg hr, List.nil_append, hct]
        simp only [jsNumber, List.head?_cons]
        rw [if_neg (by simpa using ne_dash_of_isDigit hcd),
          if_neg (by simpa using ne_plus_of_isDigit hcd), ← hct,
          jsNumberUnsigned_renderNat]
        congr 1
        have hpos : ((r.natAbs : ℕ) : ℚ) = (r : ℚ) := by
          have h1 : (r.natAbs : ℤ) = r := by omega
          rw [← Int.cast_natCast, h1]
        rw [eq_div_iff h10ne]
        rw [hpos] at hqmQ
        linarith [hqmQ]
    · -- fractional rendering
      have hf10 : r.natAbs % 10 ^ 10 < 10 ^ 10 := Nat.mod_lt _ (by norm_num)
      set D := (fracPadded (r.natAbs % 10 ^ 10)).dropWhile (fun d => decide (d = 0)) with hDdef
      set Z := (fracPadded (r.natAbs % 10 ^ 10)).takeWhile (fun d => decide (d = 0)) with hZdef
      have hZD : Z ++ D = fracPadded (r.natAbs % 10 ^ 10) := by
        rw [hZdef, hDdef]; exact List.takeWhile_append_dropWhile _ _
      have hZ0 : ∀ x ∈ Z, x = 0 := by
        intro x hx
        have := List.mem_takeWhile_imp (hZdef ▸ hx)
        simpa using this
      have hDlt : ∀ d ∈ D, d < 10 := by
        intro d hd
        apply fracPadded_lt d
        rw [← hZD]
        exact List.mem_append_right _ hd
      have hDne : D ≠ [] := by
        intro hnil
        apply hf
        have hallz : ∀ x ∈ fracPadded (r.natAbs % 10 ^ 10), x = 0 := by
          intro x hx
          rw [← hZD, hnil, List.append_nil] at hx
          exact hZ0 x hx
        rw [← ofDigits_fracPadded (r.natAbs % 10 ^ 10)]
        exact ofDigits_all_zero hallz
      have hsplit : (10 : ℕ) ^ Z.length * Nat.ofDigits 10 D = r.natAbs % 10 ^ 10 := by
        have := ofDigits_fracPadded (r.natAbs % 10 ^ 10)
        rw [← hZD, Nat.ofDigits_append, ofDigits_all_zero hZ0] at this
        simpa using this
      have hlen : Z.length + D.length = 10 := by
        have := fracPadded_length hf10
        rw [← hZD, List.length_append] at this
        exact this
      have hval : ((r.natAbs / 10 ^ 10 : ℕ) : ℚ)
          + ((Nat.ofDigits 10 D : ℕ) : ℚ) / 10 ^ D.length
          = ((r.natAbs : ℕ) : ℚ) / 10 ^ 10 := by
        rw [scaled_value_eq hlen]
        congr 2
        rw [hsplit]
        exact hmod
      rw [renderScaled_frac hdec hf, ← hDdef]
      by_cases hr : r < 0
      · rw [if_pos hr, List.singleton_append]
        simp only [jsNumber, List.head?_cons, List.tail_cons, if_pos rfl, if_true,
          eq_self_iff_true]
        rw [jsNumberUnsigned_fracForm _ hDlt, Option.map_some']
        congr 1
        rw [hval]
        have hneg : ((r.natAbs : ℕ) : ℚ) = -(r : ℚ) := by
          have h1 : (r.natAbs : ℤ) = -r := by omega
          rw [← Int.cast_natCast, h1, Int.cast_neg]
        rw [hneg]
        ring
      · obtain ⟨c, t, hct, hcd⟩ := renderNat_cons (r.natAbs / 10 ^ 10)
        rw [if_neg hr, List.nil_append, hct, List.cons_append]
        simp only [jsNumber, List.head?_cons]
        rw [if_neg (by simpa using ne_dash_of_isDigit hcd),
          if_neg (by simpa using ne_plus_of_isDigit hcd), ← List.cons_append, ← hct,
          jsNumberUnsigned_fracForm _ hDlt]
        rw [hval]
        have hpos : ((r.natAbs : ℕ) : ℚ) = (r : ℚ) := by
          have h1 : (r.natAbs : ℤ) = r := by omega
          rw [← Int.cast_natCast, h1]
        rw [hpos]

/-! ## Helper lemmas: the parse–format round trip -/

theorem renderScaled_shape (r : ℤ) :
    ∃ c t, ((renderScaled r = c :: t ∧ c.isDigit = true) ∨
      (renderScaled r = '-' :: c :: t ∧ c.isDigit = true)) := by
  by_cases hdec : r.natAbs ≠ 0 ∧ (r.natAbs < 10 ^ 4 ∨ 10 ^ 31 ≤ r.natAbs)
  · obtain ⟨d₀, rest, hrev, hd10, _⟩ := sigRev_facts hdec.1
    rw [renderScaled_exp hdec, expChars_cons hrev]
    by_cases hr : r < 0
    · exact ⟨digitChar d₀, _, Or.inr ⟨by rw [if_pos hr]; rfl, isDigit_digitChar hd10⟩⟩
    · exact ⟨digitChar d₀, _, Or.inl ⟨by rw [if_neg hr]; rfl, isDigit_digitChar hd10⟩⟩
  · obtain ⟨c, t, hct, hcd⟩ := renderNat_cons (r.natAbs / 10 ^ 10)
    by_cases hf : r.natAbs % 10 ^ 10 = 0
    · rw [renderScaled_int hdec hf, hct]
      by_cases hr : r < 0
      · exact ⟨c, t, Or.inr ⟨by rw [if_pos hr]; rfl, hcd⟩⟩
      · exact ⟨c, t, Or.inl ⟨by rw [if_neg hr]; rfl, hcd⟩⟩
    · rw [renderScaled_frac hdec hf, hct]
      by_cases hr : r < 0
      · exact ⟨c, _, Or.inr ⟨by rw [if_pos hr]; rfl, hcd⟩⟩
      · exact ⟨c, _, Or.inl ⟨by rw [if_neg hr]; rfl, hcd⟩⟩

theorem renderScaled_not_special (r : ℤ) :
    ¬(renderScaled r = [ '-' ] ∨ renderScaled r = [] ∨ renderScaled r = [ '.' ]) := by
  obtain ⟨c, t, h | h⟩ := renderScaled_shape r
  · obtain ⟨hs, hcd⟩ := h
    rw [hs]
    intro hcase
    rcases hcase with h1 | h1 | h1
    · injection h1 with h2 _
      exact ne_dash_of_isDigit hcd h2
    · exact absurd h1 (by simp)
    · injection h1 with h2 _
      exact ne_dot_of_isDigit hcd h2
  · obtain ⟨hs, _⟩ := h
    rw [hs]
    intro hcase
    rcases hcase with h1 | h1 | h1
    · injection h1 with _ h2
      exact absurd h2 (by simp)
    · exact absurd h1 (by simp)
    · injection h1 with h2 _
      exact absurd h2 (by decide)

theorem parseCharsFull_renderScaled (r : ℤ) :
    parseCharsFull (renderScaled r) = (r : ℚ) / 10 ^ 10 := by
  unfold parseCharsFull
  rw [if_neg (renderScaled_not_special r), jsNumber_renderScaled]

theorem jsNumberOr0_renderScaled (r : ℤ) :
    jsNumberOr0 (renderScaled r) = (r : ℚ) / 10 ^ 10 := by
  rw [jsNumberOr0, jsNumber_renderScaled]
  rfl

theorem ratRound10_scaled (r : ℤ) : ratRound10 ((r : ℚ) / 10 ^ 10) = r := by
  have h10ne : ((10 : ℚ) ^ 10) ≠ 0 := by positivity
  unfold ratRound10
  have harg : ((r : ℚ) / 10 ^ 10 + epsQ) * 10 ^ 10 + 1 / 2
      = (r : ℚ) + (epsQ * 10 ^ 10 + 1 / 2) := by
    rw [add_mul, div_mul_cancel₀ _ h10ne, add_assoc]
  rw [harg]
  have heps : ⌊epsQ * 10 ^ 10 + 1 / 2⌋ = 0 := by
    rw [Int.floor_eq_zero_iff]
    constructor
    · norm_num [epsQ]
    · norm_num [epsQ]
  rw [Int.floor_int_add, heps, add_zero]

theorem parse_format (x : ℚ) :
    parseDisplayToNumber (formatNumber (some x)) = ((ratRound10 x : ℤ) : ℚ) / 10 ^ 10 :=
  parseCharsFull_renderScaled (ratRound10 x)

theorem dropWhile_fracPadded_facts {f : ℕ} (hf : f ≠ 0) :
    ∃ d₀ D', (fracPadded f).dropWhile (fun d => decide (d = 0)) = d₀ :: D'
      ∧ d₀ ≠ 0 ∧ d₀ < 10 := by
  set Z := (fracPadded f).takeWhile (fun d => decide (d = 0)) with hZdef
  set D := (fracPadded f).dropWhile (fun d => decide (d = 0)) with hDdef
  have hZD : Z ++ D = fracPadded f := by
    rw [hZdef, hDdef]; exact List.takeWhile_append_dropWhile _ _
  have hZ0 : ∀ x ∈ Z, x = 0 := by
    intro x hx
    have := List.mem_takeWhile_imp (hZdef ▸ hx)
    simpa using this
  have hDne : D ≠ [] := by
    intro hnil
    apply hf
    have hallz : ∀ x ∈ fracPadded f, x = 0 := by
      intro x hx
      rw [← hZD, hnil, List.append_nil] at hx
      exact hZ0 x hx
    rw [← ofDigits_fracPadded f]
    exact ofDigits_all_zero hallz
  obtain ⟨d₀, D', hD⟩ := List.exists_cons_of_ne_nil hDne
  refine ⟨d₀, D', hD, ?_, ?_⟩
  · have := dropWhile_head_false (hDdef ▸ hD : (fracPadded f).dropWhile _ = d₀ :: D')
    simpa using this
  · apply fracPadded_lt d₀
    rw [← hZD]
    exact List.mem_append_right _ (hD ▸ List.mem_cons_self d₀ D')

theorem renderScaled_trailing (r : ℤ) :
    (renderScaled r).getLast? ≠ some '.' ∧
      ((renderScaled r).contains 'e' = false →
        (renderScaled r).contains '.' = true → (renderScaled r).getLast? ≠ some '0') := by
  by_cases hdec : r.natAbs ≠ 0 ∧ (r.natAbs < 10 ^ 4 ∨ 10 ^ 31 ≤ r.natAbs)
  · -- exponential rendering: ends in an exponent digit and contains 'e'
    obtain ⟨c, hlaste, hcd⟩ := expChars_getLast hdec.1
    have hlast : (renderScaled r).getLast? = some c := by
      rw [renderScaled_exp hdec]
      by_cases hr : r < 0
      · rw [if_pos hr]
        exact getLast?_append_some _ hlaste
      · rw [if_neg hr, List.nil_append]
        exact hlaste
    have hcont : (renderScaled r).contains 'e' = true := by
      rw [renderScaled_exp hdec, contains_eq_decide_mem]
      simp only [decide_eq_true_eq]
      exact List.mem_append_right _ (expChars_contains_e hdec.1)
    constructor
    · rw [hlast]
      intro hc
      injection hc with h2
      exact ne_dot_of_isDigit hcd h2
    · intro hfalse
      rw [hcont] at hfalse
      exact absurd hfalse (by decide)
  · by_cases hf : r.natAbs % 10 ^ 10 = 0
    · -- no decimal point at all
      rw [renderScaled_int hdec hf]
      have hnodot : '.' ∉ ((if r < 0 then [ '-' ] else [])
          ++ renderNat (r.natAbs / 10 ^ 10)) := by
        intro hmem
        rcases List.mem_append.mp hmem with h | h
        · by_cases hr : r < 0
          · rw [if_pos hr] at h
            exact absurd (List.mem_singleton.mp h) (by decide)
          · rw [if_neg hr] at h
            simp at h
        · exact ne_dot_of_isDigit (renderNat_all_digit _ '.' h) rfl
      constructor
      · intro hlast
        apply hnodot
        have hne : ((if r < 0 then [ '-' ] else [])
            ++ renderNat (r.natAbs / 10 ^ 10)) ≠ [] := by
          simp [renderNat_ne_nil]
        have hgl := List.getLast?_eq_getLast _ hne
        rw [hgl] at hlast
        injection hlast with h2
        rw [← h2]
        exact List.getLast_mem hne
      · intro _ hcont
        exfalso
        rw [contains_eq_decide_mem] at hcont
        exact hnodot (by simpa using hcont)
    · -- ends in the last nonzero fraction digit
      obtain ⟨d₀, D', hD, hd₀0, hd₀10⟩ := dropWhile_fracPadded_facts hf
      rw [renderScaled_frac hdec hf, hD]
      have h1 : (((d₀ :: D').reverse).map digitChar).getLast? = some (digitChar d₀) := by
        rw [List.map_reverse, List.getLast?_reverse]
        simp
      have hlast : ((if r < 0 then [ '-' ] else []) ++
          (renderNat (r.natAbs / 10 ^ 10) ++ '.' ::
            (((d₀ :: D').reverse).map digitChar))).getLast?
          = some (digitChar d₀) := by
        apply getLast?_append_some
        apply getLast?_append_some
        rw [← List.singleton_append]
        exact getLast?_append_some _ h1
      rw [hlast]
      constructor
      · intro hc
        injection hc with h2
        exact ne_dot_of_isDigit (isDigit_digitChar hd₀10) h2
      · intro _ _ hc
        injection hc with h2
        exact hd₀0 ((digitChar_eq_zero_iff hd₀10).mp h2)

/-! ## Helper lemmas: display well-formedness -/

theorem bodyOK_iff {body : List Char} :
    bodyOK body = true ↔
      (∃ c t, body = c :: t ∧ c.isDigit = true) ∧
        (∀ c ∈ body, c.isDigit = true ∨ c = '.') ∧ body.count '.' ≤ 1 := by
  cases body with
  | nil => simp [bodyOK]
  | cons c t =>
      unfold bodyOK
      simp only [Bool.and_eq_true, List.all_eq_true, Bool.or_eq_true, decide_eq_true_eq]
      constructor
      · rintro ⟨⟨hcd, hall⟩, hcount⟩
        exact ⟨⟨c, t, rfl, hcd⟩, hall, hcount⟩
      · rintro ⟨⟨c', t', heq, hcd⟩, hall, hcount⟩
        have hc : c' = c := by injection heq with h1 _; exact h1.symm ▸ rfl
        exact ⟨⟨hc ▸ hcd, hall⟩, hcount⟩

theorem bodyOK_ne_nil {body : List Char} (h : bodyOK body = true) : body ≠ [] := by
  obtain ⟨⟨c, t, rfl, _⟩, _, _⟩ := bodyOK_iff.mp h
  simp

theorem bodyOK_head_digit {body : List Char} (h : bodyOK body = true) :
    body.head? ≠ some '-' := by
  obtain ⟨⟨c, t, rfl, hcd⟩, _, _⟩ := bodyOK_iff.mp h
  simpa using ne_dash_of_isDigit hcd

theorem bodyOK_append_digit {body : List Char} {c : Char} (hb : bodyOK body = true)
    (hc : c.isDigit = true) : bodyOK (body ++ [c]) = true := by
  obtain ⟨⟨c0, t0, rfl, hd0⟩, hall, hcount⟩ := bodyOK_iff.mp hb
  apply bodyOK_iff.mpr
  refine ⟨⟨c0, t0 ++ [c], by simp, hd0⟩, ?_, ?_⟩
  · intro x hx
    rcases List.mem_append.mp hx with h | h
    · exact hall x h
    · rw [List.mem_singleton.mp h]
      exact Or.inl hc
  · rw [List.count_append]
    have : List.count '.' [c] = 0 := by
      apply List.count_eq_zero.mpr
      intro hmem
      rw [List.mem_singleton] at hmem
      exact ne_dot_of_isDigit hc hmem.symm
    omega

theorem bodyOK_append_dot {body : List Char} (hb : bodyOK body = true)
    (hnd : '.' ∉ body) : bodyOK (body ++ [ '.' ]) = true := by
  obtain ⟨⟨c0, t0, rfl, hd0⟩, hall, _⟩ := bodyOK_iff.mp hb
  apply bodyOK_iff.mpr
  refine ⟨⟨c0, t0 ++ [ '.' ], by simp, hd0⟩, ?_, ?_⟩
  · intro x hx
    rcases List.mem_append.mp hx with h | h
    · exact hall x h
    · exact Or.inr (List.mem_singleton.mp h)
  · rw [List.count_append]
    have h0 : List.count '.' (c0 :: t0) = 0 := List.count_eq_zero.mpr hnd
    have h1 : List.count '.' [ '.' ] = 1 := by decide
    omega

theorem bodyOK_dropLast {body : List Char} (hb : bodyOK body = true)
    (hlen : 2 ≤ body.length) : bodyOK body.dropLast = true := by
  obtain ⟨⟨c0, t0, rfl, hd0⟩, hall, hcount⟩ := bodyOK_iff.mp hb
  have ht0 : t0 ≠ [] := by
    intro hnil
    rw [hnil] at hlen
    simp at hlen
  apply bodyOK_iff.mpr
  have hdl : (c0 :: t0).dropLast = c0 :: t0.dropLast := by
    cases t0 with
    | nil => exact absurd rfl ht0
    | cons a l => rfl
  rw [hdl]
  have hsub : List.Sublist (c0 :: t0.dropLast) (c0 :: t0) :=
    List.Sublist.cons₂ c0 (List.dropLast_sublist t0)
  refine ⟨⟨c0, t0.dropLast, rfl, hd0⟩, ?_, ?_⟩
  · intro x hx
    exact hall x (hsub.subset hx)
  · calc List.count '.' (c0 :: t0.dropLast) ≤ List.count '.' (c0 :: t0) :=
        hsub.count_le '.'
      _ ≤ 1 := hcount

theorem dispOK_ne_nil {cs : List Char} (h : dispOK cs = true) : cs ≠ [] := by
  unfold dispOK at h
  split at h
  · intro hnil
    rw [hnil] at h
    exact absurd h (by decide)
  · exact bodyOK_ne_nil h

theorem dispOK_validNumeral {cs : List Char} (h : dispOK cs = true) :
    validNumeral cs = true := by
  unfold dispOK at h
  unfold validNumeral
  split at h <;> rename_i hhead
  · rw [if_pos hhead]
    obtain ⟨⟨c0, t0, hb, hd0⟩, hall, hcount⟩ := bodyOK_iff.mp h
    simp only [Bool.and_eq_true, List.all_eq_true, Bool.or_eq_true, decide_eq_true_eq,
      List.any_eq_true, Bool.not_eq_true']
    refine ⟨⟨⟨?_, fun c hc => (hall c hc).imp id fun hcc => by rw [hcc]⟩, hcount⟩,
      ⟨c0, by rw [hb]; exact List.mem_cons_self c0 t0, hd0⟩⟩
    rw [hb]
    simp [List.isEmpty_iff]
  · rw [if_neg hhead]
    obtain ⟨⟨c0, t0, hb, hd0⟩, hall, hcount⟩ := bodyOK_iff.mp h
    simp only [Bool.and_eq_true, List.all_eq_true, Bool.or_eq_true, decide_eq_true_eq,
      List.any_eq_true, Bool.not_eq_true']
    refine ⟨⟨⟨?_, fun c hc => (hall c hc).imp id fun hcc => by rw [hcc]⟩, hcount⟩,
      ⟨c0, by rw [hb]; exact List.mem_cons_self c0 t0, hd0⟩⟩
    rw [hb]
    simp [List.isEmpty_iff]

theorem dispOK_append_digit {cs : List Char} {c : Char} (h : dispOK cs = true)
    (hc : c.isDigit = true) : dispOK (cs ++ [c]) = true := by
  unfold dispOK at h ⊢
  split at h <;> rename_i hhead
  · obtain ⟨c0, t, rfl⟩ : ∃ c0 t, cs = c0 :: t := by
      cases cs with
      | nil => simp at hhead
      | cons a l => exact ⟨a, l, rfl⟩
    have hc0 : c0 = '-' := by simpa using hhead
    subst hc0
    rw [if_pos (by simp)]
    exact bodyOK_append_digit h hc
  · have hne : cs ≠ [] := bodyOK_ne_nil h
    obtain ⟨c0, t, rfl⟩ := List.exists_cons_of_ne_nil hne
    rw [if_neg (by simpa using hhead)]
    exact bodyOK_append_digit h hc

theorem dispOK_append_dot {cs : List Char} (h : dispOK cs = true)
    (hnd : '.' ∉ cs) : dispOK (cs ++ [ '.' ]) = true := by
  unfold dispOK at h ⊢
  split at h <;> rename_i hhead
  · obtain ⟨c0, t, rfl⟩ : ∃ c0 t, cs = c0 :: t := by
      cases cs with
      | nil => simp at hhead
      | cons a l => exact ⟨a, l, rfl⟩
    have hc0 : c0 = '-' := by simpa using hhead
    subst hc0
    rw [if_pos (by simp)]
    exact bodyOK_append_dot h fun hmem => hnd (List.mem_cons_of_mem _ hmem)
  · have hne : cs ≠ [] := bodyOK_ne_nil h
    obtain ⟨c0, t, rfl⟩ := List.exists_cons_of_ne_nil hne
    rw [if_neg (by simpa using hhead)]
    exact bodyOK_append_dot h hnd

theorem dispOK_toggle {cs : List Char} (h : dispOK cs = true) :
    dispOK (toggleDisp cs) = true := by
  unfold toggleDisp
  split
  · decide
  · split
    · decide
    · split
      · decide
      · split
        · decide
        · split <;> rename_i hhead
          · -- drop the sign
            unfold dispOK at h
            rw [if_pos hhead] at h
            unfold dispOK
            rw [if_neg (by
              intro hk
              exact bodyOK_head_digit h hk)]
            exact h
          · -- add a sign
            unfold dispOK at h
            rw [if_neg hhead] at h
            unfold dispOK
            rw [if_pos (by simp)]
            simpa using h

theorem dispOK_dropLast {cs : List Char} (h : dispOK cs = true)
    (hlen : ¬ cs.length ≤ 1) (hneg : ¬(cs.length = 2 ∧ cs.head? = some '-')) :
    dispOK cs.dropLast = true := by
  unfold dispOK at h
  split at h <;> rename_i hhead
  · obtain ⟨c0, t, rfl⟩ : ∃ c0 t, cs = c0 :: t := by
      cases cs with
      | nil => simp at hhead
      | cons a l => exact ⟨a, l, rfl⟩
    have hc0 : c0 = '-' := by simpa using hhead
    subst hc0
    have htlen : 2 ≤ t.length := by
      simp only [List.length_cons] at hlen hneg
      have h1 : ¬ t.length + 1 ≤ 1 := hlen
      have h2 : ¬ t.length + 1 = 2 := fun hk => hneg ⟨hk, by simp⟩
      omega
    have htne : t ≠ [] := by
      intro hnil
      rw [hnil] at htlen
      simp at htlen
    have hdl : ('-' :: t).dropLast = '-' :: t.dropLast := by
      cases t with
      | nil => exact absurd rfl htne
      | cons a l => rfl
    rw [hdl]
    unfold dispOK
    rw [if_pos (by simp)]
    simp only [List.tail_cons]
    exact bodyOK_dropLast h htlen
  · have hne : cs ≠ [] := bodyOK_ne_nil h
    obtain ⟨c0, t, rfl⟩ := List.exists_cons_of_ne_nil hne
    have htne : t ≠ [] := by
      intro hnil
      rw [hnil] at hlen
      simp at hlen
    have hdl : (c0 :: t).dropLast = c0 :: t.dropLast := by
      cases t with
      | nil => exact absurd rfl htne
      | cons a l => rfl
    rw [hdl]
    unfold dispOK
    rw [if_neg (by simpa using bodyOK_head_digit h)]
    have hgoal := bodyOK_dropLast h (by
      simp only [List.length_cons] at hlen ⊢
      omega)
    rw [hdl] at hgoal
    exact hgoal

theorem dispOK_renderScaled {r : ℤ}
    (hdec : ¬(r.natAbs ≠ 0 ∧ (r.natAbs < 10 ^ 4 ∨ 10 ^ 31 ≤ r.natAbs))) :
    dispOK (renderScaled r) = true := by
  have hint : ∀ q : ℕ, bodyOK (renderNat q) = true := by
    intro q
    obtain ⟨c, t, hct, hcd⟩ := renderNat_cons q
    apply bodyOK_iff.mpr
    refine ⟨⟨c, t, hct, hcd⟩, ?_, ?_⟩
    · exact fun x hx => Or.inl (renderNat_all_digit q x hx)
    · have h0 : List.count '.' (renderNat q) = 0 := by
        apply List.count_eq_zero.mpr
        intro hmem
        exact ne_dot_of_isDigit (renderNat_all_digit q '.' hmem) rfl
      omega
  by_cases hf : r.natAbs % 10 ^ 10 = 0
  · rw [renderScaled_int hdec hf]
    by_cases hr : r < 0
    · rw [if_pos hr, List.singleton_append]
      unfold dispOK
      rw [if_pos (by simp)]
      simpa using hint _
    · rw [if_neg hr, List.nil_append]
      unfold dispOK
      rw [if_neg (bodyOK_head_digit (hint _))]
      exact hint _
  · obtain ⟨d₀, D', hD, hd₀0, hd₀10⟩ := dropWhile_fracPadded_facts hf
    have hDlt : ∀ d ∈ d₀ :: D', d < 10 := by
      rw [← hD]
      intro d hd
      apply fracPadded_lt d
      have := List.takeWhile_append_dropWhile (fun d => decide (d = 0))
        (fracPadded (r.natAbs % 10 ^ 10))
      rw [← this]
      exact List.mem_append_right _ hd
    have hbody : bodyOK (renderNat (r.natAbs / 10 ^ 10) ++ '.' ::
        (((d₀ :: D').reverse).map digitChar)) = true := by
      obtain ⟨c, t, hct, hcd⟩ := renderNat_cons (r.natAbs / 10 ^ 10)
      apply bodyOK_iff.mpr
      refine ⟨⟨c, t ++ '.' :: (((d₀ :: D').reverse).map digitChar), by rw [hct]; simp, hcd⟩,
        ?_, ?_⟩
      · intro x hx
        rcases List.mem_append.mp hx with hmem | hmem
        · exact Or.inl (renderNat_all_digit _ x hmem)
        · rcases List.mem_cons.mp hmem with hmem | hmem
          · exact Or.inr hmem
          · obtain ⟨dd, hdd, rfl⟩ := List.mem_map.mp hmem
            exact Or.inl (isDigit_digitChar (hDlt dd (List.mem_reverse.mp hdd)))
      · rw [List.count_append]
        have h1 : List.count '.' (renderNat (r.natAbs / 10 ^ 10)) = 0 := by
          apply List.count_eq_zero.mpr
          intro hmem
          exact ne_dot_of_isDigit (renderNat_all_digit _ '.' hmem) rfl
        have h2 : List.count '.' ((((d₀ :: D').reverse).map digitChar)) = 0 := by
          apply List.count_eq_zero.mpr
          intro hmem
          obtain ⟨dd, hdd, hdc⟩ := List.mem_map.mp hmem
          exact ne_dot_of_isDigit (isDigit_digitChar (hDlt dd (List.mem_reverse.mp hdd))) hdc
        have h3 : List.count '.' ('.' :: (((d₀ :: D').reverse).map digitChar)) = 1 := by
          rw [List.count_cons, h2]
          simp
        omega
    rw [renderScaled_frac hdec hf, hD]
    by_cases hr : r < 0
    · rw [if_pos hr, List.singleton_append]
      unfold dispOK
      rw [if_pos (by simp)]
      simpa using hbody
    · rw [if_neg hr, List.nil_append]
      unfold dispOK
      rw [if_neg (bodyOK_head_digit hbody)]
      exact hbody

theorem fmtSafe_not_exp {x : ℚ} (h : fmtSafe x = true) :
    ¬((ratRound10 x).natAbs ≠ 0 ∧
      ((ratRound10 x).natAbs < 10 ^ 4 ∨ 10 ^ 31 ≤ (ratRound10 x).natAbs)) := by
  simp only [fmtSafe, Bool.and_eq_true, Bool.or_eq_true, decide_eq_true_eq] at h
  rcases h.2 with h0 | hrange
  · simp [h0]
  · intro hc
    rcases hc.2 with hlt | hge
    · omega
    · omega

/-- In the plain-decimal regime a formatted value is a `dispOK` numeral. -/
theorem dispOK_format {x : ℚ} (h : fmtSafe x = true) :
    dispOK (formatNumber (some x)).data = true :=
  dispOK_renderScaled (fmtSafe_not_exp h)

/-! ## Claims C8–C10: formatting and the rounded stored operand -/

/-- C8 counterexample: at `n = 123454999999 / 10^17` (whose scaled value
`n·10^10 = 12345.4999999` rounds down to `12345`), the code's
`Number.EPSILON` shift makes `formatNumber` display `"0.0000012346"`,
not the true 10-decimal rounding `"0.0000012345"`. -/
theorem claim_C8_counterexample :
    formatNumber (some (123454999999 / 10 ^ 17)) = "0.0000012346" ∧
    specFormatTen (123454999999 / 10 ^ 17) = "0.0000012345" ∧
    formatNumber (some (123454999999 / 10 ^ 17)) ≠ specFormatTen (123454999999 / 10 ^ 17) := by
  refine ⟨by decide, by decide, by decide⟩

/-- C8 (amended): for every finite `n` with `|n| ≤ 10^297` (so the double
multiply `(n + EPSILON) * 1e10` cannot overflow to `Infinity`) whose
rounded scaled value `⌊(n + Number.EPSILON)·10^10 + 1/2⌋` is zero or has
magnitude in `[10^4, 10^31)` (the plain-decimal range of
`Number::toString`; outside it the display is exponential notation),
`format n` is the plain decimal numeral rendering of
`⌊(n + Number.EPSILON)·10^10 + 1/2⌋ / 10^10` — the round-half-up of
`n + 2^-52` at the 10th decimal place, not of `n` itself — stated as: the
display is a valid decimal numeral that reparses to exactly that value.
Negative zero is normalized (`-10^-11` displays `"0"`), an operation whose
exact result is `0.3` displays `"0.3"`, and a non-finite argument formats
to the error marker. -/
theorem claim_C8_amended :
    (∀ n : ℚ, |n| ≤ 10 ^ 297 →
      (ratRound10 n = 0 ∨
        (10 ^ 4 ≤ (ratRound10 n).natAbs ∧ (ratRound10 n).natAbs < 10 ^ 31)) →
      validNumeral (formatNumber (some n)).data = true ∧
      parseDisplayToNumber (formatNumber (some n))
        = ((ratRound10 n : ℤ) : ℚ) / 10 ^ 10) ∧
    formatNumber (some (1 / 10 + 2 / 10)) = "0.3" ∧
    formatNumber (some (-(1 / 10 ^ 11))) = "0" ∧
    formatNumber none = "Error" := by
  refine ⟨fun n hbound hrange => ⟨?_, parse_format n⟩, by decide, by decide, rfl⟩
  apply dispOK_validNumeral
  apply dispOK_renderScaled
  intro hc
  rcases hrange with h0 | hr
  · exact hc.1 (by simp [h0])
  · rcases hc.2 with hlt | hge
    · omega
    · omega

/-- C8 witness: the amended claim instantiated at `n = 3/10`, whose scaled
rounding `3·10^9` lies in the plain-decimal range; the display is the
valid numeral `"0.3"` and reparses to `3·10^9 / 10^10`. -/
theorem claim_C8_witness :
    |(3 : ℚ) / 10| ≤ 10 ^ 297 ∧
    (10 ^ 4 ≤ (ratRound10 (3 / 10)).natAbs ∧ (ratRound10 (3 / 10)).natAbs < 10 ^ 31) ∧
    validNumeral (formatNumber (some (3 / 10))).data = true ∧
    parseDisplayToNumber (formatNumber (some (3 / 10)))
      = ((ratRound10 (3 / 10) : ℤ) : ℚ) / 10 ^ 10 := by
  have habs : |(3 : ℚ) / 10| ≤ 10 ^ 297 := by
    rw [abs_of_pos (by norm_num)]
    norm_num
  have hrange : 10 ^ 4 ≤ (ratRound10 ((3 : ℚ) / 10)).natAbs
      ∧ (ratRound10 ((3 : ℚ) / 10)).natAbs < 10 ^ 31 := ⟨by decide, by decide⟩
  obtain ⟨h1, h2⟩ := claim_C8_amended.1 (3 / 10) habs (Or.inr hrange)
  exact ⟨habs, hrange, h1, h2⟩

/-- C9 counterexample: at `x = 15·10^29` the rounded scaled value
`15·10^39` lies outside the plain-decimal range, so `format` produces the
exponential string `"1.5e+30"` — which contains a decimal point and ends
in the digit `'0'`, refuting «format never returns a string with a
trailing run of zeros after the decimal point» as stated. -/
theorem claim_C9_counterexample :
    formatNumber (some (15 * 10 ^ 29)) = "1.5e+30" ∧
    (formatNumber (some (15 * 10 ^ 29))).data.contains '.' = true ∧
    (formatNumber (some (15 * 10 ^ 29))).data.getLast? = some '0' := by
  refine ⟨by decide, by decide, by decide⟩

/-- C9 (amended): for every finite `x` with `|x| ≤ 10^297` (so the double
multiply inside `format` cannot overflow to `Infinity`, whose display
breaks the round trip), `format (parse (format x)) = format x`; a
formatted string never ends in a decimal point; and a plain-decimal
formatted string — one containing no `'e'`, i.e. not in exponential
notation — never ends in a `'0'` when it contains a decimal point. -/
theorem claim_C9_amended :
    ∀ x : ℚ, |x| ≤ 10 ^ 297 →
      formatNumber (some (parseDisplayToNumber (formatNumber (some x))))
          = formatNumber (some x) ∧
      (formatNumber (some x)).data.getLast? ≠ some '.' ∧
      ((formatNumber (some x)).data.contains 'e' = false →
        (formatNumber (some x)).data.contains '.' = true →
        (formatNumber (some x)).data.getLast? ≠ some '0') := by
  intro x hx
  refine ⟨?_, (renderScaled_trailing (ratRound10 x)).1,
    (renderScaled_trailing (ratRound10 x)).2⟩
  rw [parse_format]
  show String.mk (renderScaled (ratRound10 (((ratRound10 x : ℤ) : ℚ) / 10 ^ 10))) = _
  rw [ratRound10_scaled]
  rfl

/-- C9 witness: the amended claim at `x = 3/10`: the round trip holds and
the formatted string `"0.3"` (plain decimal, containing a point) does not
end in `'0'`. -/
theorem claim_C9_witness :
    |(3 : ℚ) / 10| ≤ 10 ^ 297 ∧
    formatNumber (some (parseDisplayToNumber (formatNumber (some (3 / 10)))))
        = formatNumber (some (3 / 10)) ∧
    (formatNumber (some (3 / 10))).data.getLast? ≠ some '0' := by
  have habs : |(3 : ℚ) / 10| ≤ 10 ^ 297 := by
    rw [abs_of_pos (by norm_num)]
    norm_num
  refine ⟨habs, (claim_C9_amended (3 / 10) habs).1,
    (claim_C9_amended (3 / 10) habs).2.2 (by decide) (by decide)⟩

/-- C10: after every successful compute inside `setOperator` (the chaining
branch) or `evaluateEquals` (the pending branch), the stored `prevValue`
equals the numeric reparse of the formatted display string — the
10-decimal-rounded value `⌊(v + ε)·10^10 + ½⌋/10^10` — not the raw
arithmetic result `v`. -/
theorem claim_C10 :
    (∀ (s : CalcState) (o p : Op) (pv v : ℚ), s.error = false → s.overwrite = false →
      s.pendingOp = some p → s.prevValue = some pv →
      compute pv p (parseDisplayToNumber s.display) = some v →
      (setOperator o s).prevValue = some (parseDisplayToNumber (formatNumber (some v))) ∧
      (setOperator o s).display = formatNumber (some v) ∧
      parseDisplayToNumber (formatNumber (some v)) = ((ratRound10 v : ℤ) : ℚ) / 10 ^ 10) ∧
    (∀ (s : CalcState) (p : Op) (pv v : ℚ), s.error = false →
      s.pendingOp = some p → s.prevValue = some pv →
      compute pv p (parseDisplayToNumber s.display) = some v →
      (evaluateEquals s).prevValue = some (parseDisplayToNumber (formatNumber (some v))) ∧
      (evaluateEquals s).display = formatNumber (some v) ∧
      parseDisplayToNumber (formatNumber (some v)) = ((ratRound10 v : ℤ) : ℚ) / 10 ^ 10) := by
  have hkey : ∀ v : ℚ, jsNumberOr0 (formatNumber (some v)).data
      = parseDisplayToNumber (formatNumber (some v)) := by
    intro v
    show jsNumberOr0 (renderScaled (ratRound10 v)) = parseCharsFull (renderScaled (ratRound10 v))
    rw [jsNumberOr0_renderScaled, parseCharsFull_renderScaled]
  constructor
  · intro s o p pv v herr hov hop hpv hcomp
    simp only [setOperator, herr, Bool.false_eq_true, if_false, hop, hpv, hov,
      Option.isSome_some, and_false, hcomp]
    exact ⟨by rw [hkey], trivial, parse_format v⟩
  · intro s p pv v herr hop hpv hcomp
    simp only [evaluateEquals, herr, Bool.false_eq_true, if_false, hop, hpv, hcomp]
    exact ⟨by rw [hkey], trivial, parse_format v⟩

/-- C10 witness: the two branches instantiated concretely — the chaining
compute of `2`, `+`, `3`, `+` and the equals compute of `5`, `+`, `3`, `=`,
with the hypotheses discharged by evaluation. -/
theorem claim_C10_witness :
    ((setOperator Op.add (run [Action.digit 2, Action.op Op.add, Action.digit 3])).prevValue
        = some (parseDisplayToNumber (formatNumber (some 5))) ∧
      (setOperator Op.add (run [Action.digit 2, Action.op Op.add, Action.digit 3])).display
        = formatNumber (some 5) ∧
      parseDisplayToNumber (formatNumber (some 5)) = ((ratRound10 5 : ℤ) : ℚ) / 10 ^ 10) ∧
    ((evaluateEquals (run [Action.digit 5, Action.op Op.add, Action.digit 3])).prevValue
        = some (parseDisplayToNumber (formatNumber (some 8))) ∧
      (evaluateEquals (run [Action.digit 5, Action.op Op.add, Action.digit 3])).display
        = formatNumber (some 8) ∧
      parseDisplayToNumber (formatNumber (some 8)) = ((ratRound10 8 : ℤ) : ℚ) / 10 ^ 10) :=
  ⟨claim_C10.1 (run [Action.digit 2, Action.op Op.add, Action.digit 3]) Op.add Op.add 2 5
      (by decide) (by decide) (by decide) (by decide) (by decide),
    claim_C10.2 (run [Action.digit 5, Action.op Op.add, Action.digit 3]) Op.add 5 8
      (by decide) (by decide) (by decide) (by decide)⟩

/-! ## Helper lemmas: the engine invariant is preserved by every action -/

theorem bool_eq_false {b : Bool} (h : ¬ b = true) : b = false := by
  cases b
  · rfl
  · exact absurd rfl h

theorem data_append (s t : String) : (s ++ t).data = s.data ++ t.data := rfl

theorem bodyOK_single_digit {c : Char} (hc : c.isDigit = true) : bodyOK [c] = true := by
  apply bodyOK_iff.mpr
  refine ⟨⟨c, [], rfl, hc⟩, ?_, ?_⟩
  · intro x hx
    rw [List.mem_singleton.mp hx]
    exact Or.inl hc
  · calc List.count '.' [c] ≤ [c].length := List.count_le_length '.' [c]
      _ = 1 := rfl

theorem dispOK_single_digit {c : Char} (hc : c.isDigit = true) : dispOK [c] = true := by
  unfold dispOK
  rw [if_neg (by simpa using ne_dash_of_isDigit hc)]
  exact bodyOK_single_digit hc

theorem dispOK_digitStr (d : Fin 10) : dispOK (digitStr d).data = true :=
  dispOK_single_digit (isDigit_digitChar d.isLt)

theorem dispOK_neg_digit (d : Fin 10) : dispOK ("-" ++ digitStr d).data = true := by
  show dispOK ('-' :: [digitChar d.val]) = true
  unfold dispOK
  rw [if_pos (by simp)]
  exact bodyOK_single_digit (isDigit_digitChar d.isLt)

theorem dispOK_zero : dispOK ("0" : String).data = true := by decide

theorem dispOK_zeroDot : dispOK ("0." : String).data = true := by decide

/-! ## Helper lemmas: the sign/nonemptiness discipline of the display -/

theorem signOK_cons_of_ne {c : Char} (t : List Char) (h : c ≠ '-') :
    signOK (c :: t) = true := by
  simp only [signOK]
  rw [if_neg h]

theorem signOK_dash_cons {c2 : Char} (t : List Char) (h : c2 ≠ '-') :
    signOK ('-' :: c2 :: t) = true := by
  simp only [signOK]
  rw [if_pos trivial]
  exact decide_eq_true h

theorem signOK_ne_nil {cs : List Char} (h : signOK cs = true) : cs ≠ [] := by
  intro hnil
  rw [hnil] at h
  simp [signOK] at h

theorem signOK_append {cs : List Char} (h : signOK cs = true) (c : Char) :
    signOK (cs ++ [c]) = true := by
  cases cs with
  | nil => simp [signOK] at h
  | cons c0 t =>
      by_cases hc0 : c0 = '-'
      · subst hc0
        cases t with
        | nil => simp [signOK] at h
        | cons c2 t' =>
            have hc2 : ¬c2 = '-' := by simpa [signOK] using h
            exact signOK_dash_cons (t' ++ [c]) hc2
      · exact signOK_cons_of_ne (t ++ [c]) hc0

theorem signOK_toggle {cs : List Char} (h : signOK cs = true) :
    signOK (toggleDisp cs) = true := by
  unfold toggleDisp
  split
  · decide
  · split
    · decide
    · split
      · decide
      · split
        · decide
        · split
          · next hhead =>
              cases cs with
              | nil => simp [signOK] at h
              | cons c0 t =>
                  have hc0 : c0 = '-' := by simpa using hhead
                  subst hc0
                  cases t with
                  | nil => simp [signOK] at h
                  | cons c2 t' =>
                      have hc2 : ¬c2 = '-' := by simpa [signOK] using h
                      exact signOK_cons_of_ne t' hc2
          · next hhead =>
              cases cs with
              | nil => simp [signOK] at h
              | cons c0 t =>
                  have hc0 : ¬c0 = '-' := by
                    intro hc
                    exact hhead (by rw [hc]; rfl)
                  exact signOK_dash_cons t hc0

theorem signOK_dropLast {cs : List Char} (h : signOK cs = true)
    (hlen : ¬cs.length ≤ 1) (hneg : ¬(cs.length = 2 ∧ cs.head? = some '-')) :
    signOK cs.dropLast = true := by
  cases cs with
  | nil => simp at hlen
  | cons c0 t =>
      cases t with
      | nil => simp at hlen
      | cons c1 t2 =>
          by_cases hc0 : c0 = '-'
          · subst hc0
            cases t2 with
            | nil => exact absurd ⟨rfl, rfl⟩ hneg
            | cons c2 t3 =>
                have hc1 : ¬c1 = '-' := by simpa [signOK] using h
                exact signOK_dash_cons ((c2 :: t3).dropLast) hc1
          · exact signOK_cons_of_ne ((c1 :: t2).dropLast) hc0

theorem signOK_renderScaled (r : ℤ) : signOK (renderScaled r) = true := by
  obtain ⟨c, t, hs | hs⟩ := renderScaled_shape r
  · rw [hs.1]
    exact signOK_cons_of_ne t (ne_dash_of_isDigit hs.2)
  · rw [hs.1]
    exact signOK_dash_cons t (ne_dash_of_isDigit hs.2)

theorem signOK_format (x : ℚ) : signOK (formatNumber (some x)).data = true :=
  signOK_renderScaled (ratRound10 x)

theorem signOK_digitStr (d : Fin 10) : signOK (digitStr d).data = true :=
  signOK_cons_of_ne [] (ne_dash_of_isDigit (isDigit_digitChar d.isLt))

theorem signOK_neg_digit (d : Fin 10) : signOK ("-" ++ digitStr d).data = true :=
  signOK_dash_cons [] (ne_dash_of_isDigit (isDigit_digitChar d.isLt))

theorem signOK_zero : signOK ("0" : String).data = true := by decide

theorem signOK_zeroDot : signOK ("0." : String).data = true := by decide

theorem inv_initState : Inv initState :=
  ⟨fun hk => absurd hk (by decide), fun _ => signOK_zero, fun hk => absurd hk (by decide),
    fun hk => absurd hk (by decide), fun hk => absurd hk (by decide)⟩

theorem inv_setErrorState (s : CalcState) : Inv (setErrorState s) := by
  refine ⟨fun _ => rfl, ?_, ?_, ?_, fun _ => ⟨rfl, rfl, rfl⟩⟩
  · intro hk
    exact absurd hk (by simp [setErrorState])
  · intro hk
    exact absurd hk (by simp [setErrorState])
  · intro hk
    exact absurd hk (by simp [setErrorState])

theorem inv_inputDigit (d : Fin 10) {s : CalcState} (h : Inv s) : Inv (inputDigit d s) := by
  obtain ⟨hED, hD, hPV, hVP, hEF⟩ := h
  unfold inputDigit
  split
  · exact ⟨by simp, fun _ => signOK_digitStr d, by simp, by simp, by simp⟩
  · next herr =>
    split
    · exact ⟨fun hk => absurd hk herr, fun _ => signOK_digitStr d, hPV, hVP,
        fun hk => absurd hk herr⟩
    · split
      · exact ⟨fun hk => absurd hk herr, fun _ => signOK_digitStr d, hPV, hVP,
          fun hk => absurd hk herr⟩
      · split
        · exact ⟨fun hk => absurd hk herr, fun _ => signOK_neg_digit d, hPV, hVP,
            fun hk => absurd hk herr⟩
        · refine ⟨fun hk => absurd hk herr, fun _ => ?_, hPV, hVP,
            fun hk => absurd hk herr⟩
          show signOK (s.display.data ++ [digitChar d.val]) = true
          exact signOK_append (hD (bool_eq_false herr)) (digitChar d.val)

theorem inv_inputDecimal {s : CalcState} (h : Inv s) : Inv (inputDecimal s) := by
  obtain ⟨hED, hD, hPV, hVP, hEF⟩ := h
  unfold inputDecimal
  split
  · exact ⟨by simp, fun _ => signOK_zeroDot, by simp, by simp, by simp⟩
  · next herr =>
    split
    · exact ⟨fun hk => absurd hk herr, fun _ => signOK_zeroDot, hPV, hVP,
        fun hk => absurd hk herr⟩
    · split
      · exact ⟨hED, hD, hPV, hVP, hEF⟩
      · next hnc =>
        split
        · exact ⟨fun hk => absurd hk herr, fun _ => signOK_zeroDot, hPV, hVP,
            fun hk => absurd hk herr⟩
        · split
          · exact ⟨fun hk => absurd hk herr, fun _ => signOK_zeroDot, hPV, hVP,
              fun hk => absurd hk herr⟩
          · refine ⟨fun hk => absurd hk herr, fun _ => ?_, hPV, hVP,
              fun hk => absurd hk herr⟩
            show signOK (s.display.data ++ [ '.' ]) = true
            exact signOK_append (hD (bool_eq_false herr)) '.'

theorem inv_toggleSign {s : CalcState} (h : Inv s) : Inv (toggleSign s) := by
  obtain ⟨hED, hD, hPV, hVP, hEF⟩ := h
  unfold toggleSign
  split
  · exact ⟨hED, hD, hPV, hVP, hEF⟩
  · next herr =>
    exact ⟨fun hk => absurd hk herr, fun _ => signOK_toggle (hD (bool_eq_false herr)),
      hPV, hVP, fun hk => absurd hk herr⟩

theorem inv_backspace {s : CalcState} (h : Inv s) : Inv (backspace s) := by
  obtain ⟨hED, hD, hPV, hVP, hEF⟩ := h
  unfold backspace
  split
  · exact inv_initState
  · next herr =>
    split
    · exact ⟨fun hk => absurd hk herr, fun _ => signOK_zero, hPV, hVP,
        fun hk => absurd hk herr⟩
    · split
      · exact ⟨fun hk => absurd hk herr, fun _ => signOK_zero, hPV, hVP,
          fun hk => absurd hk herr⟩
      · split
        · exact ⟨fun hk => absurd hk herr, fun _ => signOK_zero, hPV, hVP,
            fun hk => absurd hk herr⟩
        · next hlen hneg =>
          refine ⟨fun hk => absurd hk herr, fun _ => ?_, hPV, hVP,
            fun hk => absurd hk herr⟩
          show signOK s.display.data.dropLast = true
          exact signOK_dropLast (hD (bool_eq_false herr)) hlen hneg

theorem inv_clearAll (s : CalcState) : Inv (clearAll s) := inv_initState

theorem inv_applyPercent {s : CalcState} (h : Inv s) : Inv (applyPercent s) := by
  obtain ⟨hED, hD, hPV, hVP, hEF⟩ := h
  unfold applyPercent
  split
  · exact ⟨hED, hD, hPV, hVP, hEF⟩
  · next herr =>
    cases hpo : s.pendingOp with
    | some p =>
        cases hpv : s.prevValue with
        | some pv =>
            exact ⟨fun hk => absurd hk herr, fun _ => signOK_format _,
              fun _ => by simp, fun _ => Or.inl (by simp), fun hk => absurd hk herr⟩
        | none =>
            refine ⟨fun hk => absurd hk herr, fun _ => signOK_format _, ?_, ?_,
              fun hk => absurd hk herr⟩
            · intro _
              have := hPV (by rw [hpo]; simp)
              rw [hpv] at this
              simp at this
            · intro hk
              simp at hk
    | none =>
        cases hpv : s.prevValue with
        | some pv =>
            refine ⟨fun hk => absurd hk herr, fun _ => signOK_format _, ?_, ?_,
              fun hk => absurd hk herr⟩
            · intro hk
              simp at hk
            · intro _
              have := hVP (by rw [hpv]; simp)
              rw [hpo] at this
              rcases this with hc | hc
              · simp at hc
              · exact Or.inr hc
        | none =>
            exact ⟨fun hk => absurd hk herr, fun _ => signOK_format _,
              fun hk => by simp at hk, fun hk => by simp at hk,
              fun hk => absurd hk herr⟩

theorem inv_setOperator (op : Op) {s : CalcState} (h : Inv s) : Inv (setOperator op s) := by
  obtain ⟨hED, hD, hPV, hVP, hEF⟩ := h
  by_cases herr : s.error = true
  · unfold setOperator
    rw [if_pos herr]
    exact ⟨hED, hD, hPV, hVP, hEF⟩
  · have herr' : s.error = false := bool_eq_false herr
    by_cases hrepl : s.pendingOp.isSome = true ∧ s.overwrite = true
    · simp only [setOperator, herr', Bool.false_eq_true, if_false, if_pos hrepl]
      exact ⟨fun hk => by simp at hk, fun _ => hD herr', fun _ => hPV hrepl.1,
        fun _ => Or.inl rfl, fun hk => by simp at hk⟩
    · cases hpo : s.pendingOp with
      | some p =>
          have hov : s.overwrite = false := by
            rcases Bool.eq_false_or_eq_true s.overwrite with hk | hk
            · exact absurd ⟨by rw [hpo]; rfl, hk⟩ hrepl
            · exact hk
          cases hpv : s.prevValue with
          | some pv =>
              cases hcomp : compute pv p (parseDisplayToNumber s.display) with
              | none =>
                  simp only [setOperator, herr', Bool.false_eq_true, if_false, hpo, hpv, hov,
                    Option.isSome_some, and_false, hcomp]
                  exact inv_setErrorState s
              | some v =>
                  simp only [setOperator, herr', Bool.false_eq_true, if_false, hpo, hpv, hov,
                    Option.isSome_some, and_false, hcomp]
                  exact ⟨fun hk => by simp at hk, fun _ => signOK_format v,
                    fun _ => rfl, fun _ => Or.inl rfl, fun hk => by simp at hk⟩
          | none =>
              simp only [setOperator, herr', Bool.false_eq_true, if_false, hpo, hpv, hov,
                Option.isSome_some, and_false]
              exact ⟨fun hk => by simp at hk, fun _ => hD herr',
                fun _ => rfl, fun _ => Or.inl rfl, fun hk => by simp at hk⟩
      | none =>
          simp only [setOperator, herr', Bool.false_eq_true, if_false, hpo,
            Option.isSome_none, false_and]
          exact ⟨fun hk => by simp at hk, fun _ => hD herr',
            fun _ => rfl, fun _ => Or.inl rfl, fun hk => by simp at hk⟩

theorem inv_evaluateEquals {s : CalcState} (h : Inv s) : Inv (evaluateEquals s) := by
  obtain ⟨hED, hD, hPV, hVP, hEF⟩ := h
  by_cases herr : s.error = true
  · unfold evaluateEquals
    rw [if_pos herr]
    exact ⟨hED, hD, hPV, hVP, hEF⟩
  · have herr' : s.error = false := bool_eq_false herr
    cases hpo : s.pendingOp with
    | some p =>
        cases hpv : s.prevValue with
        | some pv =>
            cases hcomp : compute pv p (parseDisplayToNumber s.display) with
            | none =>
                simp only [evaluateEquals, herr', Bool.false_eq_true, if_false, hpo, hpv, hcomp]
                exact inv_setErrorState s
            | some v =>
                simp only [evaluateEquals, herr', Bool.false_eq_true, if_false, hpo, hpv, hcomp]
                exact ⟨fun hk => by simp at hk, fun _ => signOK_format v,
                  fun hk => by simp at hk, fun _ => Or.inr rfl,
                  fun hk => by simp at hk⟩
        | none =>
            simp only [evaluateEquals, herr', Bool.false_eq_true, if_false, hpo, hpv]
            refine ⟨fun hk => by simp at hk, fun _ => hD herr', ?_, ?_,
              fun hk => by simp at hk⟩
            · intro _
              have := hPV (by rw [hpo]; simp)
              rw [hpv] at this
              simp at this
            · intro hk
              simp at hk
    | none =>
        cases hlo : s.lastOp with
        | some lr =>
            cases lr with
            | mk lop rhs =>
                cases hcomp : compute (parseDisplayToNumber s.display) lop rhs with
                | none =>
                    simp only [evaluateEquals, herr', Bool.false_eq_true, if_false, hpo, hlo,
                      hcomp]
                    exact inv_setErrorState s
                | some v =>
                    simp only [evaluateEquals, herr', Bool.false_eq_true, if_false, hpo, hlo,
                      hcomp]
                    exact ⟨fun hk => by simp at hk, fun _ => signOK_format v,
                      fun hk => by simp at hk, fun _ => Or.inr rfl,
                      fun hk => by simp at hk⟩
        | none =>
            simp only [evaluateEquals, herr', Bool.false_eq_true, if_false, hpo, hlo]
            refine ⟨fun hk => by simp at hk, fun _ => hD herr', ?_, ?_,
              fun hk => by simp at hk⟩
            · intro hk
              simp at hk
            · intro hk
              rcases hVP hk with hc | hc
              · rw [hpo] at hc
                simp at hc
              · rw [hlo] at hc
                simp at hc

theorem step_inv {s : CalcState} (h : Inv s) (a : Action) : Inv (step s a) := by
  cases a with
  | digit d => exact inv_inputDigit d h
  | decimal => exact inv_inputDecimal h
  | op o => exact inv_setOperator o h
  | equals => exact inv_evaluateEquals h
  | clear => exact inv_clearAll s
  | sign => exact inv_toggleSign h
  | percent => exact inv_applyPercent h
  | back => exact inv_backspace h

theorem foldl_inv : ∀ (acts : List Action) (s : CalcState), Inv s → Inv (acts.foldl step s) := by
  intro acts
  induction acts with
  | nil => exact fun s h => h
  | cons a t ih => exact fun s h => ih (step s a) (step_inv h a)

theorem run_inv (acts : List Action) : Inv (run acts) :=
  foldl_inv acts initState inv_initState

/-! ## Helper lemmas: the conditional display invariant under safe steps -/

theorem invD_initState : InvD initState :=
  ⟨fun _ => dispOK_zero, fun hk => absurd hk (by decide)⟩

theorem invD_setErrorState (s : CalcState) : InvD (setErrorState s) :=
  ⟨fun hk => by simp [setErrorState] at hk, fun _ => rfl⟩

theorem invD_inputDigit (d : Fin 10) {s : CalcState} (h : InvD s) :
    InvD (inputDigit d s) := by
  obtain ⟨hD, hE⟩ := h
  unfold inputDigit
  split
  · exact ⟨fun _ => dispOK_digitStr d, fun hk => by simp at hk⟩
  · next herr =>
    split
    · exact ⟨fun _ => dispOK_digitStr d, fun hk => absurd hk herr⟩
    · split
      · exact ⟨fun _ => dispOK_digitStr d, fun hk => absurd hk herr⟩
      · split
        · exact ⟨fun _ => dispOK_neg_digit d, fun hk => absurd hk herr⟩
        · refine ⟨fun _ => ?_, fun hk => absurd hk herr⟩
          show dispOK (s.display.data ++ [digitChar d.val]) = true
          exact dispOK_append_digit (hD (bool_eq_false herr)) (isDigit_digitChar d.isLt)

theorem invD_inputDecimal {s : CalcState} (h : InvD s) : InvD (inputDecimal s) := by
  obtain ⟨hD, hE⟩ := h
  unfold inputDecimal
  split
  · exact ⟨fun _ => dispOK_zeroDot, fun hk => by simp at hk⟩
  · next herr =>
    split
    · exact ⟨fun _ => dispOK_zeroDot, fun hk => absurd hk herr⟩
    · split
      · exact ⟨hD, hE⟩
      · next hnc =>
        split
        · exact ⟨fun _ => dispOK_zeroDot, fun hk => absurd hk herr⟩
        · split
          · exact ⟨fun _ => dispOK_zeroDot, fun hk => absurd hk herr⟩
          · refine ⟨fun _ => ?_, fun hk => absurd hk herr⟩
            show dispOK (s.display.data ++ [ '.' ]) = true
            apply dispOK_append_dot (hD (bool_eq_false herr))
            intro hmem
            apply hnc
            rw [contains_eq_decide_mem]
            simpa using hmem

theorem invD_toggleSign {s : CalcState} (h : InvD s) : InvD (toggleSign s) := by
  obtain ⟨hD, hE⟩ := h
  unfold toggleSign
  split
  · exact ⟨hD, hE⟩
  · next herr =>
    exact ⟨fun _ => dispOK_toggle (hD (bool_eq_false herr)), fun hk => absurd hk herr⟩

theorem invD_backspace {s : CalcState} (h : InvD s) : InvD (backspace s) := by
  obtain ⟨hD, hE⟩ := h
  unfold backspace
  split
  · exact invD_initState
  · next herr =>
    split
    · exact ⟨fun _ => dispOK_zero, fun hk => absurd hk herr⟩
    · split
      · exact ⟨fun _ => dispOK_zero, fun hk => absurd hk herr⟩
      · split
        · exact ⟨fun _ => dispOK_zero, fun hk => absurd hk herr⟩
        · next hlen hneg =>
          refine ⟨fun _ => ?_, fun hk => absurd hk herr⟩
          show dispOK s.display.data.dropLast = true
          exact dispOK_dropLast (hD (bool_eq_false herr)) hlen hneg

theorem invD_applyPercent {s : CalcState} (h : InvD s)
    (hsafe : safeStep s Action.percent = true) : InvD (applyPercent s) := by
  obtain ⟨hD, hE⟩ := h
  by_cases herr : s.error = true
  · unfold applyPercent
    rw [if_pos herr]
    exact ⟨hD, hE⟩
  · have hsafe' := hsafe
    simp only [safeStep] at hsafe'
    rw [if_neg herr] at hsafe'
    unfold applyPercent
    rw [if_neg herr]
    cases hpo : s.pendingOp with
    | some p =>
        rw [hpo] at hsafe'
        cases hpv : s.prevValue with
        | some pv =>
            rw [hpv] at hsafe'
            exact ⟨fun _ => dispOK_format hsafe', fun hk => absurd hk herr⟩
        | none =>
            rw [hpv] at hsafe'
            exact ⟨fun _ => dispOK_format hsafe', fun hk => absurd hk herr⟩
    | none =>
        rw [hpo] at hsafe'
        cases hpv : s.prevValue with
        | some pv =>
            rw [hpv] at hsafe'
            exact ⟨fun _ => dispOK_format hsafe', fun hk => absurd hk herr⟩
        | none =>
            rw [hpv] at hsafe'
            exact ⟨fun _ => dispOK_format hsafe', fun hk => absurd hk herr⟩

theorem invD_setOperator (op : Op) {s : CalcState} (h : InvD s)
    (hsafe : safeStep s (Action.op op) = true) : InvD (setOperator op s) := by
  obtain ⟨hD, hE⟩ := h
  by_cases herr : s.error = true
  · unfold setOperator
    rw [if_pos herr]
    exact ⟨hD, hE⟩
  · have herr' : s.error = false := bool_eq_false herr
    have hsafe' := hsafe
    simp only [safeStep] at hsafe'
    rw [if_neg herr] at hsafe'
    by_cases hrepl : s.pendingOp.isSome = true ∧ s.overwrite = true
    · simp only [setOperator, herr', Bool.false_eq_true, if_false, if_pos hrepl]
      exact ⟨fun _ => hD herr', fun hk => by simp at hk⟩
    · rw [if_neg hrepl] at hsafe'
      cases hpo : s.pendingOp with
      | some p =>
          have hov : s.overwrite = false := by
            rcases Bool.eq_false_or_eq_true s.overwrite with hk | hk
            · exact absurd ⟨by rw [hpo]; rfl, hk⟩ hrepl
            · exact hk
          rw [hpo] at hsafe'
          cases hpv : s.prevValue with
          | some pv =>
              rw [hpv] at hsafe'
              cases hcomp : compute pv p (parseDisplayToNumber s.display) with
              | none =>
                  simp only [setOperator, herr', Bool.false_eq_true, if_false, hpo, hpv, hov,
                    Option.isSome_some, and_false, hcomp]
                  exact invD_setErrorState s
              | some v =>
                  have h2 : (match compute pv p (parseDisplayToNumber s.display) with
                      | none => true
                      | some w => fmtSafe w) = true := hsafe'
                  rw [hcomp] at h2
                  simp only [setOperator, herr', Bool.false_eq_true, if_false, hpo, hpv, hov,
                    Option.isSome_some, and_false, hcomp]
                  exact ⟨fun _ => dispOK_format h2, fun hk => by simp at hk⟩
          | none =>
              simp only [setOperator, herr', Bool.false_eq_true, if_false, hpo, hpv, hov,
                Option.isSome_some, and_false]
              exact ⟨fun _ => hD herr', fun hk => by simp at hk⟩
      | none =>
          simp only [setOperator, herr', Bool.false_eq_true, if_false, hpo,
            Option.isSome_none, false_and]
          exact ⟨fun _ => hD herr', fun hk => by simp at hk⟩

theorem invD_evaluateEquals {s : CalcState} (h : InvD s)
    (hsafe : safeStep s Action.equals = true) : InvD (evaluateEquals s) := by
  obtain ⟨hD, hE⟩ := h
  by_cases herr : s.error = true
  · unfold evaluateEquals
    rw [if_pos herr]
    exact ⟨hD, hE⟩
  · have herr' : s.error = false := bool_eq_false herr
    have hsafe' := hsafe
    simp only [safeStep] at hsafe'
    rw [if_neg herr] at hsafe'
    cases hpo : s.pendingOp with
    | some p =>
        rw [hpo] at hsafe'
        cases hpv : s.prevValue with
        | some pv =>
            rw [hpv] at hsafe'
            cases hcomp : compute pv p (parseDisplayToNumber s.display) with
            | none =>
                simp only [evaluateEquals, herr', Bool.false_eq_true, if_false, hpo, hpv,
                  hcomp]
                exact invD_setErrorState s
            | some v =>
                have h2 : (match compute pv p (parseDisplayToNumber s.display) with
                    | none => true
                    | some w => fmtSafe w) = true := hsafe'
                rw [hcomp] at h2
                simp only [evaluateEquals, herr', Bool.false_eq_true, if_false, hpo, hpv,
                  hcomp]
                exact ⟨fun _ => dispOK_format h2, fun hk => by simp at hk⟩
        | none =>
            simp only [evaluateEquals, herr', Bool.false_eq_true, if_false, hpo, hpv]
            exact ⟨fun _ => hD herr', fun hk => by simp at hk⟩
    | none =>
        rw [hpo] at hsafe'
        cases hlo : s.lastOp with
        | some lr =>
            cases lr with
            | mk lop rhs =>
                rw [hlo] at hsafe'
                cases hcomp : compute (parseDisplayToNumber s.display) lop rhs with
                | none =>
                    simp only [evaluateEquals, herr', Bool.false_eq_true, if_false, hpo, hlo,
                      hcomp]
                    exact invD_setErrorState s
                | some v =>
                    have h2 : (match compute (parseDisplayToNumber s.display) lop rhs with
                        | none => true
                        | some w => fmtSafe w) = true := hsafe'
                    rw [hcomp] at h2
                    simp only [evaluateEquals, herr', Bool.false_eq_true, if_false, hpo, hlo,
                      hcomp]
                    exact ⟨fun _ => dispOK_format h2, fun hk => by simp at hk⟩
        | none =>
            simp only [evaluateEquals, herr', Bool.false_eq_true, if_false, hpo, hlo]
            exact ⟨fun _ => hD herr', fun hk => by simp at hk⟩

theorem step_invD {s : CalcState} (h : InvD s) {a : Action}
    (hsafe : safeStep s a = true) : InvD (step s a) := by
  cases a with
  | digit d => exact invD_inputDigit d h
  | decimal => exact invD_inputDecimal h
  | op o => exact invD_setOperator o h hsafe
  | equals => exact invD_evaluateEquals h hsafe
  | clear => exact invD_initState
  | sign => exact invD_toggleSign h
  | percent => exact invD_applyPercent h hsafe
  | back => exact invD_backspace h

theorem safeAux_invD : ∀ (acts : List Action) (s : CalcState), InvD s →
    safeAux s acts = true → InvD (acts.foldl step s) := by
  intro acts
  induction acts with
  | nil => exact fun s h _ => h
  | cons a t ih =>
      intro s h hsafe
      simp only [safeAux, Bool.and_eq_true] at hsafe
      exact ih (step s a) (step_invD h hsafe.1) hsafe.2

theorem safeTrace_invD {acts : List Action} (h : safeTrace acts = true) :
    InvD (run acts) :=
  safeAux_invD acts initState invD_initState h

/-! ## Claims C6–C7: reachable-state invariants -/

theorem backspace_zero {s : CalcState}
    (h : s.display.length ≤ 1 ∨ s.overwrite = true) : (backspace s).display = "0" := by
  unfold backspace
  split
  · rfl
  · split
    · rfl
    · next hov =>
      split
      · rfl
      · next hlen =>
        split
        · rfl
        · rcases h with hl | ho
          · exact absurd hl hlen
          · exact absurd ho hov

/-- C7 counterexample: `1`, `÷`, then `10000000`, then `=` computes
`10^-7`, whose rounded scaled value `10^3` lies below `10^4`, so
`Number::toString` renders it in exponential notation: the display becomes
`"1e-7"` with no error — not a valid plain decimal numeral and not the
error marker, refuting the display grammar as stated. -/
theorem claim_C7_counterexample :
    (run [Action.digit 1, Action.op Op.div, Action.digit 1, Action.digit 0, Action.digit 0,
        Action.digit 0, Action.digit 0, Action.digit 0, Action.digit 0, Action.digit 0,
        Action.equals]).display = "1e-7" ∧
    (run [Action.digit 1, Action.op Op.div, Action.digit 1, Action.digit 0, Action.digit 0,
        Action.digit 0, Action.digit 0, Action.digit 0, Action.digit 0, Action.digit 0,
        Action.equals]).error = false ∧
    validNumeral (run [Action.digit 1, Action.op Op.div, Action.digit 1, Action.digit 0,
        Action.digit 0, Action.digit 0, Action.digit 0, Action.digit 0, Action.digit 0,
        Action.digit 0, Action.equals]).display.data = false ∧
    (run [Action.digit 1, Action.op Op.div, Action.digit 1, Action.digit 0, Action.digit 0,
        Action.digit 0, Action.digit 0, Action.digit 0, Action.digit 0, Action.digit 0,
        Action.equals]).display ≠ "Error" := by
  refine ⟨by decide, by decide, by decide, by decide⟩

/-- C7 (amended): in every state reachable by the eight actions the display
is nonempty; along every action sequence all of whose display-bound
formatted values stay in the plain-decimal regime (`safeTrace` — outside
it the display can be exponential notation such as `"1e-7"`), the display
is moreover a syntactically valid decimal numeral or the error marker; and
`backspace` on a display of length at most 1, or while the overwrite flag
is set, yields `"0"`. -/
theorem claim_C7_amended :
    ∀ acts : List Action,
      (run acts).display ≠ "" ∧
      (safeTrace acts = true →
        validNumeral (run acts).display.data = true ∨ (run acts).display = "Error") ∧
      ((run acts).display.length ≤ 1 ∨ (run acts).overwrite = true →
        (backspace (run acts)).display = "0") := by
  intro acts
  obtain ⟨hED, hD, hPV, hVP, hEF⟩ := run_inv acts
  refine ⟨?_, ?_, fun h => backspace_zero h⟩
  · cases herr : (run acts).error
    · have hne := signOK_ne_nil (hD herr)
      intro hempty
      apply hne
      rw [hempty]
    · rw [hED herr]
      decide
  · intro hsafe
    obtain ⟨hDD, hEE⟩ := safeTrace_invD hsafe
    cases herr : (run acts).error
    · exact Or.inl (dispOK_validNumeral (hDD herr))
    · exact Or.inr (hEE herr)

/-- C7 witness: the amended claim at the single safe action `enterDigit 5`,
giving the valid numeral display `"5"`; the backspace clause discharged on
the same state, whose display has length 1. -/
theorem claim_C7_witness :
    safeTrace [Action.digit 5] = true ∧
    (validNumeral (run [Action.digit 5]).display.data = true ∨
      (run [Action.digit 5]).display = "Error") ∧
    (backspace (run [Action.digit 5])).display = "0" := by
  refine ⟨by decide, (claim_C7_amended [Action.digit 5]).2.1 (by decide),
    (claim_C7_amended [Action.digit 5]).2.2 (Or.inl (by decide))⟩

/-- C6 counterexample: after `5`, `+`, `3`, `=` followed by `enterDigit 7`,
`previousOperand` is still present (`8`) although no operator is pending and
the last action was a digit, not an equals — so «present iff pending or
right after a completed equals» fails as stated. -/
theorem claim_C6_counterexample :
    ¬ claimC6Holds [Action.digit 5, Action.op Op.add, Action.digit 3, Action.equals,
      Action.digit 7] := by
  decide

/-- C6 (amended): in every reachable state, `previousOperand` is present
whenever `pendingOperator` is present; `previousOperand` present without a
pending operator implies the last-operation memory is present (the state
descends from a completed equals, persisting — not merely transiently —
until an operator, clear, error, or error-recovery resets it);
`pendingOperator` is absent initially, after `clear()`, and in the Error
state. -/
theorem claim_C6_amended :
    ∀ acts : List Action,
      ((run acts).pendingOp.isSome = true → (run acts).prevValue.isSome = true) ∧
      ((run acts).prevValue.isSome = true →
        (run acts).pendingOp.isSome = true ∨ (run acts).lastOp.isSome = true) ∧
      ((run acts).error = true → (run acts).pendingOp = none ∧ (run acts).prevValue = none) ∧
      (run []).pendingOp = none ∧
      (run (acts ++ [Action.clear])).pendingOp = none := by
  intro acts
  obtain ⟨hED, hD, hPV, hVP, hEF⟩ := run_inv acts
  refine ⟨hPV, hVP, fun he => ⟨(hEF he).1, (hEF he).2.1⟩, rfl, ?_⟩
  show ((acts ++ [Action.clear]).foldl step initState).pendingOp = none
  rw [List.foldl_append]
  rfl

/-- C6 witness: the amended invariant applied after `5`, `+`, `3`, `=`,
where `previousOperand` is present without a pending operator, discharging
the presence hypothesis concretely. -/
theorem claim_C6_witness :
    (run [Action.digit 5, Action.op Op.add, Action.digit 3, Action.equals]).pendingOp.isSome
        = true ∨
      (run [Action.digit 5, Action.op Op.add, Action.digit 3, Action.equals]).lastOp.isSome
        = true :=
  (claim_C6_amended [Action.digit 5, Action.op Op.add, Action.digit 3,
    Action.equals]).2.1 (by decide)

end

end Calculator
